import Mathlib

/-!
A shallow embedding of the core of the `powerdataclass` library
(`powerdataclass/__init__.py`): the `powercast` coercion engine, the
per-instance field pipeline (`PowerDataclass.__pdc_handle_fields__`), the
metaclass handler-registry merge (`PowerDataclassBase.__new__`), the
dependency scheduler (`__pdc_determine_field_handling_order__` together with
the `toposort` package's `toposort_flatten`), and the `as_dict` flattening.

Python values are modelled by the inductive type `PValue`, declared types by
`PType`, exceptions by `PErr`.  Python dicts are modelled as association
lists with first-match lookup and in-place update (`dinsert` / `dupdate`),
which preserves the observable lookup behaviour of insertion-ordered dicts.
Recursion between `powercast` and dataclass instantiation goes through a
fuel parameter; running out of fuel is reported as `PErr.recursionError`,
which mirrors Python's own `RecursionError` for unbounded recursion.
-/

/-- Python runtime classes appearing in the model (`type(value)`). -/
inductive RClass where
  | rint
  | rstr
  | rbool
  | rnone
  | rlist
  | rtuple
  | rset
  | rfrozenset
  | rdict
  | rdc (name : String)
deriving DecidableEq

/-- Python values.  Sets are modelled as lists of their elements; set-specific
deduplication and ordering are not modelled (no claim depends on them). -/
inductive PValue where
  | vint (n : Int)
  | vstr (s : String)
  | vbool (b : Bool)
  | vnone
  | vlist (xs : List PValue)
  | vtuple (xs : List PValue)
  | vset (xs : List PValue)
  | vfrozenset (xs : List PValue)
  | vdict (kvs : List (PValue × PValue))
  | vdc (name : String) (fields : List (String × PValue))

mutual

/-- Structural equality of Python values (`==` restricted to the modelled
universe, where `==` coincides with structural equality). -/
def pvEq : PValue → PValue → Bool
  | .vint a, .vint b => a = b
  | .vstr a, .vstr b => a = b
  | .vbool a, .vbool b => a = b
  | .vnone, .vnone => true
  | .vlist a, .vlist b => pvListEq a b
  | .vtuple a, .vtuple b => pvListEq a b
  | .vset a, .vset b => pvListEq a b
  | .vfrozenset a, .vfrozenset b => pvListEq a b
  | .vdict a, .vdict b => pvPairsEq a b
  | .vdc n a, .vdc m b => n = m && pvFieldsEq a b
  | _, _ => false
termination_by structural a _ => a

/-- Elementwise `pvEq` on lists of values. -/
def pvListEq : List PValue → List PValue → Bool
  | [], [] => true
  | x :: xs, y :: ys => pvEq x y && pvListEq xs ys
  | _, _ => false
termination_by structural a _ => a

/-- Elementwise `pvEq` on lists of key/value pairs. -/
def pvPairsEq : List (PValue × PValue) → List (PValue × PValue) → Bool
  | [], [] => true
  | (k1, v1) :: xs, (k2, v2) :: ys => pvEq k1 k2 && pvEq v1 v2 && pvPairsEq xs ys
  | _, _ => false
termination_by structural a _ => a

/-- Elementwise `pvEq` on lists of named values. -/
def pvFieldsEq : List (String × PValue) → List (String × PValue) → Bool
  | [], [] => true
  | (n1, v1) :: xs, (n2, v2) :: ys => n1 = n2 && pvEq v1 v2 && pvFieldsEq xs ys
  | _, _ => false
termination_by structural a _ => a

end

/-- `type(value)`. -/
def runtimeClass : PValue → RClass
  | .vint _ => .rint
  | .vstr _ => .rstr
  | .vbool _ => .rbool
  | .vnone => .rnone
  | .vlist _ => .rlist
  | .vtuple _ => .rtuple
  | .vset _ => .rset
  | .vfrozenset _ => .rfrozenset
  | .vdict _ => .rdict
  | .vdc n _ => .rdc n

/-- Declared (annotation) types: a plain class, a subscripted generic from
`typing` with origin `list`/`tuple`/`set`/`frozenset`/`dict`, a `TypeVar`,
or a subscripted generic of any other origin (e.g. `typing.Iterable[str]`). -/
inductive PType where
  | plain (c : RClass)
  | listOf (t : PType)
  | tupleOf (t : PType)
  | setOf (t : PType)
  | frozensetOf (t : PType)
  | dictOf (k v : PType)
  | tvar
  | otherGeneric
deriving DecidableEq

/-- Python exceptions grouped by class.  `noneNotAllowed` is the pipeline's
`ValueError(f'A value for {cls} field `{name}` cannot be None')`, kept as a
separate constructor because it carries the record type and field names;
`missingFieldHandler` is the library's `MissingFieldHandler`;
`circularDependency` is `toposort.CircularDependencyError`. -/
inductive PErr where
  | typeError
  | valueError
  | attributeError
  | keyError
  | recursionError
  | envMissing
  | noneNotAllowed (klass fieldName : String)
  | missingFieldHandler (klass fieldName : String)
  | circularDependency
deriving DecidableEq

/-- First-match association-list lookup: Python `d[k]` / `d.get(k)`. -/
def dlookup {κ α : Type} [DecidableEq κ] (m : List (κ × α)) (k : κ) : Option α :=
  match m with
  | [] => none
  | p :: rest => if p.1 = k then some p.2 else dlookup rest k

/-- Python `k in d`. -/
def dhas {κ α : Type} [DecidableEq κ] (m : List (κ × α)) (k : κ) : Bool :=
  (dlookup m k).isSome

/-- Python `d[k] = v`: replace in place if the key exists, else append,
preserving dict insertion order. -/
def dinsert {κ α : Type} [DecidableEq κ] (m : List (κ × α)) (k : κ) (v : α) :
    List (κ × α) :=
  match m with
  | [] => [(k, v)]
  | p :: rest => if p.1 = k then (k, v) :: rest else p :: dinsert rest k v

/-- Python `d.update(other)`: later entries win, key positions preserved. -/
def dupdate {κ α : Type} [DecidableEq κ] (m other : List (κ × α)) : List (κ × α) :=
  other.foldl (fun acc p => dinsert acc p.1 p.2) m

/-- Python truthiness (`bool(v)`). -/
def truthy : PValue → Bool
  | .vint n => n ≠ 0
  | .vstr s => s ≠ ""
  | .vbool b => b
  | .vnone => false
  | .vlist xs => !xs.isEmpty
  | .vtuple xs => !xs.isEmpty
  | .vset xs => !xs.isEmpty
  | .vfrozenset xs => !xs.isEmpty
  | .vdict kvs => !kvs.isEmpty
  | .vdc _ _ => true

/-- Value of a nonempty all-digit character list, `none` otherwise. -/
def digitsValAux (acc : Nat) : List Char → Option Nat
  | [] => some acc
  | c :: cs => if c.isDigit then digitsValAux (acc * 10 + (c.toNat - 48)) cs else none

/-- Value of a nonempty all-digit character list, `none` otherwise. -/
def digitsVal (cs : List Char) : Option Nat :=
  if cs.isEmpty then none else digitsValAux 0 cs

/-- Leading whitespace characters removed. -/
def dropWS (cs : List Char) : List Char :=
  cs.dropWhile (fun c => c = ' ' || c = '\t' || c = '\n' || c = '\r')

/-- Whitespace stripped from both ends. -/
def stripWS (cs : List Char) : List Char := ((dropWS ((dropWS cs).reverse)).reverse)

/-- `int(s)` for a string: optional sign followed by at least one digit
(surrounding whitespace stripped; underscores and bases are not modelled). -/
def parsePyInt (s : String) : Option Int :=
  match stripWS s.toList with
  | '-' :: rest => (digitsVal rest).map (fun n => -(n : Int))
  | '+' :: rest => (digitsVal rest).map (fun n => (n : Int))
  | cs => (digitsVal cs).map (fun n => (n : Int))

/-- `str(v)`.  Primitive renderings match Python; container renderings are
simplified (no claim inspects the text of `str()` of a container). -/
def pyStr : PValue → String
  | .vint n => toString n
  | .vstr s => s
  | .vbool b => if b then "True" else "False"
  | .vnone => "None"
  | .vlist _ => "<list>"
  | .vtuple _ => "<tuple>"
  | .vset _ => "<set>"
  | .vfrozenset _ => "<frozenset>"
  | .vdict _ => "<dict>"
  | .vdc n _ => "<" ++ n ++ ">"

/-- `int(v)`: identity on ints, 0/1 on bools, strict parse on strings
(`ValueError` on a bad literal), `TypeError` otherwise (floats are not in
the modelled value universe). -/
def intConstruct : PValue → Except PErr PValue
  | .vint n => .ok (.vint n)
  | .vbool b => .ok (.vint (if b then 1 else 0))
  | .vstr s =>
    match parsePyInt s with
    | some n => .ok (.vint n)
    | none => .error .valueError
  | _ => .error .typeError

/-- Iterating a value (`for item in value`): strings yield their characters,
dicts yield their keys; non-iterables yield `none`. -/
def iterElems : PValue → Option (List PValue)
  | .vlist xs => some xs
  | .vtuple xs => some xs
  | .vset xs => some xs
  | .vfrozenset xs => some xs
  | .vstr s => some (s.toList.map (fun c => .vstr (String.mk [c])))
  | .vdict kvs => some (kvs.map Prod.fst)
  | _ => none

/-- `hasattr(value, 'items')`: in the modelled universe only dicts have it. -/
def hasItems : PValue → Bool
  | .vdict _ => true
  | _ => false

/-- `dict(v)`: from a mapping, or from an iterable of key/value pairs
(elements that are not pairs raise; the exotic 2-character-string case is
not modelled). -/
def dictConstruct : PValue → Except PErr PValue
  | .vdict kvs => .ok (.vdict kvs)
  | .vlist xs => dictFromPairList xs
  | .vtuple xs => dictFromPairList xs
  | .vset xs => dictFromPairList xs
  | .vfrozenset xs => dictFromPairList xs
  | _ => .error .typeError
where
  dictFromPairList (xs : List PValue) : Except PErr PValue :=
    match pairsOf xs with
    | some kvs => .ok (.vdict kvs)
    | none => .error .typeError
  pairsOf : List PValue → Option (List (PValue × PValue))
    | [] => some []
    | .vlist [k, v] :: rest => (pairsOf rest).map (fun r => (k, v) :: r)
    | .vtuple [k, v] :: rest => (pairsOf rest).map (fun r => (k, v) :: r)
    | _ => none

/-- Direct single-argument construction `_type(value)` for a plain,
non-dataclass class (the final `else` of `powercast`, line 88). -/
def constructPlain (c : RClass) (v : PValue) : Except PErr PValue :=
  match c with
  | .rint => intConstruct v
  | .rstr => .ok (.vstr (pyStr v))
  | .rbool => .ok (.vbool (truthy v))
  | .rlist =>
    match iterElems v with
    | some xs => .ok (.vlist xs)
    | none => .error .typeError
  | .rtuple =>
    match iterElems v with
    | some xs => .ok (.vtuple xs)
    | none => .error .typeError
  | .rset =>
    match iterElems v with
    | some xs => .ok (.vset xs)
    | none => .error .typeError
  | .rfrozenset =>
    match iterElems v with
    | some xs => .ok (.vfrozenset xs)
    | none => .error .typeError
  | .rdict => dictConstruct v
  | .rnone => .error .typeError
  | .rdc _ => .error .typeError

/-- `issubclass(t, collections.abc.Mapping)` where `t` is whatever stands in
a type annotation: `dict` is the only Mapping subclass in the model, and
passing a subscripted generic or a `TypeVar` raises `TypeError` as in
Python. -/
def issubclassOfMapping : PType → Except PErr Bool
  | .plain c => .ok (c = .rdict)
  | _ => .error .typeError

/-- `issubclass(type(value), Iterable)` (strings and dicts are iterable). -/
def isIterableClass : RClass → Bool
  | .rstr => true
  | .rlist => true
  | .rtuple => true
  | .rset => true
  | .rfrozenset => true
  | .rdict => true
  | _ => false

/-- `_is_iterable_but_not_string_type(type(value))` (lines 10-11). -/
def isIterableNotStringClass : RClass → Bool
  | .rlist => true
  | .rtuple => true
  | .rset => true
  | .rfrozenset => true
  | .rdict => true
  | _ => false

/-- A dataclass field descriptor (`dataclasses.Field` plus the library's
`FieldMeta` metadata).  `default = none` models `dataclasses.MISSING`;
`defaultFactory` is the value a declared `default_factory` would produce
(`none` when no factory is declared). -/
structure FieldDesc where
  name : String
  ftype : PType
  default : Option PValue
  defaultFactory : Option PValue
  skipTypecasting : Bool
  nullable : Bool
  dependsOn : List String

/-- A handler method: takes `self` (the instance's current field map) and
the field value, returns the new value.  Handlers are modelled as the total
functions the library documents them to be. -/
abbrev Handler := List (String × PValue) → PValue → PValue

/-- A finalized PowerDataclass: the merged registries, the field list and
the field-handling order fixed by the metaclass at definition time. -/
structure PDCClass where
  name : String
  fields : List FieldDesc
  fieldHandlers : List (String × Handler)
  typeHandlers : List (PType × Handler)
  handlingOrder : List FieldDesc
  asDictIgnoreWhenNested : Bool

/-- The environment binding dataclass names to their finalized classes. -/
abbrev Env := List (String × PDCClass)

/-- `self.__bound_pdc_type_handlers__` (lines 290-292): each type handler
partially applied to the current instance. -/
def boundTypeCasters (cls : PDCClass) (inst : List (String × PValue)) :
    List (PType × (PValue → PValue)) :=
  cls.typeHandlers.map (fun p => (p.1, p.2 inst))

/-- Binding of constructor arguments to fields, following Python's calling
convention for a dataclass `__init__`: positional arguments in field order,
then keyword arguments, then `default` / `default_factory`; a missing
required argument, a duplicate binding or a surplus argument raises
`TypeError`.  (The dataclass rule rejecting a non-default field after a
default one is a definition-time concern not modelled here.) -/
def bindFieldArgs : List FieldDesc → List PValue → List (String × PValue) →
    Except PErr (List (String × PValue))
  | [], _, _ => .ok []
  | f :: fs, p :: ps, kw =>
    if dhas kw f.name then .error .typeError
    else
      match bindFieldArgs fs ps kw with
      | .ok rest => .ok ((f.name, p) :: rest)
      | .error e => .error e
  | f :: fs, [], kw =>
    match dlookup kw f.name with
    | some v =>
      match bindFieldArgs fs [] kw with
      | .ok rest => .ok ((f.name, v) :: rest)
      | .error e => .error e
    | none =>
      match f.default.or f.defaultFactory with
      | some d =>
        match bindFieldArgs fs [] kw with
        | .ok rest => .ok ((f.name, d) :: rest)
        | .error e => .error e
      | none => .error .typeError

/-- Full argument binding: also rejects surplus positional arguments and
unexpected keyword arguments. -/
def bindArgs (fields : List FieldDesc) (pos : List PValue)
    (kw : List (String × PValue)) : Except PErr (List (String × PValue)) :=
  if fields.length < pos.length then .error .typeError
  else if kw.any (fun p => !fields.any (fun f => f.name = p.1)) then .error .typeError
  else bindFieldArgs fields pos kw

/-- `field_value is None`. -/
def isNoneV : PValue → Bool
  | .vnone => true
  | _ => false

/-- The third branch of `__pdc_handle_fields__` (lines 277-286): no handler
applies, so null values are checked against `nullable` and a non-missing
`default`, and non-null values go to the coercion engine `pc` with the
instance-bound type handlers. -/
def genericFieldStep (pc : PValue → PType → List (PType × (PValue → PValue)) → Except PErr PValue)
    (cls : PDCClass) (inst : List (String × PValue)) (f : FieldDesc) (v : PValue) :
    Except PErr (List (String × PValue)) :=
  if isNoneV v then
    if f.nullable || f.default.isSome then .ok inst
    else .error (.noneNotAllowed cls.name f.name)
  else
    match pc v f.ftype (boundTypeCasters cls inst) with
    | .ok w => .ok (dinsert inst f.name w)
    | .error e => .error e

/-- One iteration of the loop in `__pdc_handle_fields__` (lines 267-288):
skip, else field-name handler, else type handler, else `genericFieldStep`;
the resulting value is written back with `setattr`. -/
def handleFieldWith (pc : PValue → PType → List (PType × (PValue → PValue)) → Except PErr PValue)
    (cls : PDCClass) (inst : List (String × PValue)) (f : FieldDesc) :
    Except PErr (List (String × PValue)) :=
  match dlookup inst f.name with
  | none => .error .attributeError
  | some v =>
    if f.skipTypecasting then .ok inst
    else
      match dlookup cls.fieldHandlers f.name with
      | some h => .ok (dinsert inst f.name (h inst v))
      | none =>
        match dlookup cls.typeHandlers f.ftype with
        | some h => .ok (dinsert inst f.name (h inst v))
        | none => genericFieldStep pc cls inst f v

/-- The whole `__pdc_handle_fields__` loop over a given field order. -/
def runPipelineWith (pc : PValue → PType → List (PType × (PValue → PValue)) → Except PErr PValue)
    (cls : PDCClass) : List FieldDesc → List (String × PValue) →
    Except PErr (List (String × PValue))
  | [], inst => .ok inst
  | f :: fs, inst =>
    match handleFieldWith pc cls inst f with
    | .ok inst2 => runPipelineWith pc cls fs inst2
    | .error e => .error e

/-- Instantiating a PowerDataclass: `__init__` binds the arguments, then
`__post_init__` runs the pipeline over the order fixed at definition time. -/
def buildInstanceWith (pc : PValue → PType → List (PType × (PValue → PValue)) → Except PErr PValue)
    (cls : PDCClass) (pos : List PValue) (kw : List (String × PValue)) :
    Except PErr PValue :=
  match bindArgs cls.fields pos kw with
  | .error e => .error e
  | .ok inst0 =>
    match runPipelineWith pc cls cls.handlingOrder inst0 with
    | .ok inst => .ok (.vdc cls.name inst)
    | .error e => .error e

/-- `**value` unpacking of a dict: all keys must be strings. -/
def kwargsOf : List (PValue × PValue) → Except PErr (List (String × PValue))
  | [] => .ok []
  | (PValue.vstr s, v) :: rest =>
    match kwargsOf rest with
    | .ok r => .ok ((s, v) :: r)
    | .error e => .error e
  | _ => .error .typeError

/-- A Python dict display built from a list of key/value pairs: a later
duplicate key overwrites the earlier value in place (keys compared with
`pvEq`, which is structural equality on the modelled values). -/
def pdictOfPairs (ps : List (PValue × PValue)) : List (PValue × PValue) :=
  ps.foldl (fun acc p => pdictInsert acc p.1 p.2) []
where
  pdictInsert (m : List (PValue × PValue)) (k : PValue) (v : PValue) :
      List (PValue × PValue) :=
    match m with
    | [] => [(k, v)]
    | q :: rest => if pvEq q.1 k then (k, v) :: rest else q :: pdictInsert rest k v

/-- The generator in the sequence branch of `powercast` (line 69): each
element cast to the item type with the same `type_casters` table. -/
def castElems (pc : PValue → PType → List (PType × (PValue → PValue)) → Except PErr PValue)
    (it : PType) (cs : List (PType × (PValue → PValue))) :
    List PValue → Except PErr (List PValue)
  | [] => .ok []
  | x :: xs =>
    match pc x it cs with
    | .ok y =>
      match castElems pc it cs xs with
      | .ok ys => .ok (y :: ys)
      | .error e => .error e
    | .error e => .error e

/-- The dict comprehension in the mapping branch of `powercast`
(lines 79-82): each key cast to the key type — the source passes no
`type_casters` argument for keys, so the key cast runs with an empty
table — and each value cast to the value type with the full table. -/
def castPairs (pc : PValue → PType → List (PType × (PValue → PValue)) → Except PErr PValue)
    (kt vt : PType) (cs : List (PType × (PValue → PValue))) :
    List (PValue × PValue) → Except PErr (List (PValue × PValue))
  | [] => .ok []
  | (k, v) :: rest =>
    match pc k kt [] with
    | .ok k2 =>
      match pc v vt cs with
      | .ok v2 =>
        match castPairs pc kt vt cs rest with
        | .ok r => .ok ((k2, v2) :: r)
        | .error e => .error e
      | .error e => .error e
    | .error e => .error e

/-- `powercast(value, _type, type_casters)` (lines 18-88), with an
environment resolving dataclass names and a fuel bound on the recursion
between `powercast` and dataclass instantiation.  Branches in source
order: the `value_type == _type` identity fast path (line 38), the
`type_casters` override (lines 41-42), dataclass targets (lines 44-59,
where a `TypeError` from direct single-argument instantiation is turned
into a `ValueError`), subscripted sequence targets (lines 62-69),
subscripted mapping targets (lines 71-82, where — due to the rebinding of
`value_type` at line 73 — the `Mapping` guard tests the declared value
type), other generic origins (lines 84-85), and direct construction
(lines 86-88). -/
def powercast : Nat → Env → PValue → PType → List (PType × (PValue → PValue)) →
    Except PErr PValue
  | 0, _, _, _, _ => .error .recursionError
  | fuel + 1, env, value, t, casters =>
    if t = PType.plain (runtimeClass value) then .ok value
    else
      match dlookup casters t with
      | some f => .ok (f value)
      | none =>
        match t with
        | .plain (.rdc dcName) =>
          match dlookup env dcName with
          | none => .error .envMissing
          | some cls =>
            match value with
            | .vdict kvs =>
              match kwargsOf kvs with
              | .ok kw => buildInstanceWith (powercast fuel env) cls [] kw
              | .error e => .error e
            | .vlist xs => buildInstanceWith (powercast fuel env) cls xs []
            | .vtuple xs => buildInstanceWith (powercast fuel env) cls xs []
            | .vset xs => buildInstanceWith (powercast fuel env) cls xs []
            | .vfrozenset xs => buildInstanceWith (powercast fuel env) cls xs []
            | _ =>
              match buildInstanceWith (powercast fuel env) cls [value] [] with
              | .error .typeError => .error .valueError
              | r => r
        | .listOf it =>
          if it = PType.tvar then .error .typeError
          else if !isIterableClass (runtimeClass value) then .error .valueError
          else
            match iterElems value with
            | some items =>
              match castElems (powercast fuel env) it casters items with
              | .ok ys => .ok (.vlist ys)
              | .error e => .error e
            | none => .error .valueError
        | .tupleOf it =>
          if it = PType.tvar then .error .typeError
          else if !isIterableClass (runtimeClass value) then .error .valueError
          else
            match iterElems value with
            | some items =>
              match castElems (powercast fuel env) it casters items with
              | .ok ys => .ok (.vtuple ys)
              | .error e => .error e
            | none => .error .valueError
        | .setOf it =>
          if it = PType.tvar then .error .typeError
          else if !isIterableClass (runtimeClass value) then .error .valueError
          else
            match iterElems value with
            | some items =>
              match castElems (powercast fuel env) it casters items with
              | .ok ys => .ok (.vset ys)
              | .error e => .error e
            | none => .error .valueError
        | .frozensetOf it =>
          if it = PType.tvar then .error .typeError
          else if !isIterableClass (runtimeClass value) then .error .valueError
          else
            match iterElems value with
            | some items =>
              match castElems (powercast fuel env) it casters items with
              | .ok ys => .ok (.vfrozenset ys)
              | .error e => .error e
            | none => .error .valueError
        | .dictOf kt vt =>
          if kt = PType.tvar || vt = PType.tvar then .error .typeError
          else
            match issubclassOfMapping vt with
            | .error e => .error e
            | .ok b =>
              if !(b || hasItems value) then .error .valueError
              else
                match value with
                | .vdict kvs =>
                  match castPairs (powercast fuel env) kt vt casters kvs with
                  | .ok ps => .ok (.vdict (pdictOfPairs ps))
                  | .error e => .error e
                | _ => .error .attributeError
        | .tvar => .error .typeError
        | .otherGeneric => .error .typeError
        | .plain c => constructPlain c value

/-- Instantiating a PowerDataclass at a given recursion budget. -/
def mkInstance (fuel : Nat) (env : Env) (cls : PDCClass) (pos : List PValue)
    (kw : List (String × PValue)) : Except PErr PValue :=
  buildInstanceWith (powercast fuel env) cls pos kw

/-- The handler declarations made in one schema class's own body (`spec`
entries tagged by the `field_handler` / `type_handler` decorators). -/
structure HandlerDecls (α : Type) where
  fieldDecls : List (String × α)
  typeDecls : List (PType × α)

/-- The registry built for one class by `PowerDataclassBase.__new__`
(lines 127-144), given the already-built registries of its ancestor chain
(base-most first).  The `for base_klass in klass.__mro__` loop sees, in
order: the parent's registry (reached through `getattr` on the fresh class,
which has no own entry yet), then each ancestor's registry from most
derived to most base, then the empty registries of `PowerDataclass` and
`object`; each is merged with `dict.update`, so a later (more base)
registry overwrites same-key entries of an earlier one.  The class's own
tagged declarations are applied last. -/
def mroMergedReg {κ α : Type} [DecidableEq κ] (ancestorRegs : List (List (κ × α)))
    (own : List (κ × α)) : List (κ × α) :=
  let viaGetattr := (ancestorRegs.getLast?).getD []
  let mroRegs := viaGetattr :: (ancestorRegs.reverse ++ [[], []])
  dupdate (mroRegs.foldl dupdate []) own

/-- Registries of every class in a single-inheritance chain (base-most
first), each built by `mroMergedReg` from its ancestors' registries. -/
def chainRegsAux {κ α : Type} [DecidableEq κ] (ownOf : HandlerDecls α → List (κ × α))
    (chain : List (HandlerDecls α)) : List (List (κ × α)) :=
  chain.foldl (fun acc d => acc ++ [mroMergedReg acc (ownOf d)]) []

/-- The field-handler registry of the most-derived class of a chain. -/
def finalFieldReg {α : Type} (chain : List (HandlerDecls α)) : List (String × α) :=
  ((chainRegsAux (fun d => d.fieldDecls) chain).getLast?).getD []

/-- The type-handler registry of the most-derived class of a chain. -/
def finalTypeReg {α : Type} (chain : List (HandlerDecls α)) : List (PType × α) :=
  ((chainRegsAux (fun d => d.typeDecls) chain).getLast?).getD []

/-- Lexicographic comparison of character lists by code point, the order
Python's `sorted` uses on strings. -/
def charListLe : List Char → List Char → Bool
  | [], _ => true
  | _ :: _, [] => false
  | c :: cs, d :: ds =>
    if c.toNat < d.toNat then true
    else if d.toNat < c.toNat then false
    else charListLe cs ds

/-- Lexicographic comparison of strings by code point. -/
def strLe (a b : String) : Bool := charListLe a.toList b.toList

/-- Lexicographic insertion into a sorted list of strings. -/
def insertSorted (a : String) : List String → List String
  | [] => [a]
  | b :: bs => if strLe a b then a :: b :: bs else b :: insertSorted a bs

/-- Python `sorted` on strings (insertion sort; both orders are the
lexicographic order on code points). -/
def sortStrings (l : List String) : List String := l.foldr insertSorted []

/-- The keys of a dependency graph (`data.keys()`). -/
def graphKeys (g : List (String × List String)) : List String := g.map Prod.fst

/-- The items with no remaining dependencies (`ordered` in
`toposort.toposort`). -/
def readyKeys (g : List (String × List String)) : List String :=
  (g.filter (fun p => p.2.isEmpty)).map Prod.fst

/-- One round of `toposort.toposort`: drop the ready items and remove them
from every remaining dependency set. -/
def kahnRest (g : List (String × List String)) (ready : List String) :
    List (String × List String) :=
  (g.filter (fun p => !ready.contains p.1)).map
    (fun p => (p.1, p.2.filter (fun d => !ready.contains d)))

/-- The loop of `toposort.toposort`, flattened as in `toposort_flatten`
with `sort=True`: each batch of ready items is emitted in sorted order; if
no item is ready while items remain, `CircularDependencyError` is raised.
The loop is driven by an explicit bound on the number of rounds; every
round removes at least one item, so the bound `kahn` supplies is never
reached (`kahnFuel_fuel_irrelevant` below). -/
def kahnFuel : Nat → List (String × List String) → Except PErr (List String)
  | _, [] => .ok []
  | 0, _ :: _ => .error .recursionError
  | fuel + 1, g =>
    let ready := readyKeys g
    if ready.isEmpty then .error .circularDependency
    else
      match kahnFuel fuel (kahnRest g ready) with
      | .ok tail => .ok (sortStrings ready ++ tail)
      | .error e => .error e

/-- The `toposort.toposort` loop at a sufficient round bound. -/
def kahn (g : List (String × List String)) : Except PErr (List String) :=
  kahnFuel g.length g

/-- `toposort.toposort` discards self-dependencies before the loop
(`v.discard(k)`). -/
def discardSelf (g : List (String × List String)) : List (String × List String) :=
  g.map (fun p => (p.1, p.2.filter (fun d => d != p.1)))

/-- Items that appear only as dependencies (`extra_items_in_deps`); they
are added to the graph with no dependencies of their own. -/
def extraItems (g : List (String × List String)) : List String :=
  ((g.map Prod.snd).flatten.dedup).filter (fun d => !(graphKeys g).contains d)

/-- `toposort.toposort_flatten(data)` with the default `sort=True`: an
empty graph yields nothing; otherwise self-dependencies are discarded,
dependency-only items are added, and the sorted-batch loop runs. -/
def toposortFlatten (g : List (String × List String)) : Except PErr (List String) :=
  if g.isEmpty then .ok []
  else
    let g1 := discardSelf g
    kahn (g1 ++ (extraItems g1).map (fun d => (d, [])))

/-- The dependency graph of a schema (line 176-178): one node per field,
with its `DEPENDS_ON_FIELDS` metadata as dependencies. -/
def dependencyGraph (fields : List FieldDesc) : List (String × List String) :=
  fields.map (fun f => (f.name, f.dependsOn))

/-- `fields_name_map[field_name]` for each name of the computed order
(line 182); a name with no field raises `KeyError`. -/
def lookupFields (fields : List FieldDesc) : List String → Except PErr (List FieldDesc)
  | [] => .ok []
  | n :: ns =>
    match fields.find? (fun f => f.name == n) with
    | some f =>
      match lookupFields fields ns with
      | .ok rest => .ok (f :: rest)
      | .error e => .error e
    | none => .error .keyError

/-- `__pdc_determine_field_handling_order__` (lines 161-182): if no field
declares a dependency, the fields are returned in declaration order
without building the graph; otherwise `toposort_flatten` runs on the
dependency graph and the resulting names are mapped back to fields. -/
def determineFieldHandlingOrder (fields : List FieldDesc) : Except PErr (List FieldDesc) :=
  if !(fields.any (fun f => !f.dependsOn.isEmpty)) then .ok fields
  else
    match toposortFlatten (dependencyGraph fields) with
    | .ok order => lookupFields fields order
    | .error e => .error e

/-- The calculatable-field check (lines 156-159): the first field with a
non-empty `DEPENDS_ON_FIELDS` and no registered field handler raises
`MissingFieldHandler`, naming the class and the field. -/
def checkCalculatable (klassName : String) (fields : List FieldDesc)
    (freg : List (String × Handler)) : Except PErr Unit :=
  match fields.find? (fun f => !f.dependsOn.isEmpty && !dhas freg f.name) with
  | some f => .error (.missingFieldHandler klassName f.name)
  | none => .ok ()

/-- Schema finalization (`PowerDataclassBase.__new__` after the dataclass
conversion, lines 156-184): given the merged registries, run the
calculatable-field check and fix the field-handling order.  Both failures
happen at class-definition time, before any instance can exist — in this
model an instance can only be built from the `PDCClass` this returns. -/
def finalizeClass (name : String) (fields : List FieldDesc)
    (freg : List (String × Handler)) (treg : List (PType × Handler))
    (ignoreNested : Bool) : Except PErr PDCClass :=
  match checkCalculatable name fields freg with
  | .error e => .error e
  | .ok _ =>
    match determineFieldHandlingOrder fields with
    | .ok order => .ok ⟨name, fields, freg, treg, order, ignoreNested⟩
    | .error e => .error e

/-- `Except.isOk`. -/
def isOk {ε α : Type} : Except ε α → Bool
  | .ok _ => true
  | .error _ => false

mutual

/-- `_convert_to_dict` (lines 297-312): PowerDataclass values flatten to a
dict of their fields (unless `as_dict_ignore_when_nested` and not `force`);
non-string iterables rebuild the same container kind from converted
elements — note that dicts, being iterable, hit this branch first and are
rebuilt by `dict(<converted keys>)`, which only succeeds if every key is a
pair; everything else is returned as-is.  (Plain non-Power dataclasses are
not part of the modelled universe.) -/
def convertToDict (env : Env) (force : Bool) : PValue → Except PErr PValue
  | .vdc n fs =>
    match dlookup env n with
    | none => .error .envMissing
    | some cls =>
      if cls.asDictIgnoreWhenNested && !force then .ok (.vdc n fs)
      else
        match asDictPairs env force fs with
        | .ok ps => .ok (.vdict ps)
        | .error e => .error e
  | .vlist xs =>
    match convertAll env force xs with
    | .ok ys => .ok (.vlist ys)
    | .error e => .error e
  | .vtuple xs =>
    match convertAll env force xs with
    | .ok ys => .ok (.vtuple ys)
    | .error e => .error e
  | .vset xs =>
    match convertAll env force xs with
    | .ok ys => .ok (.vset ys)
    | .error e => .error e
  | .vfrozenset xs =>
    match convertAll env force xs with
    | .ok ys => .ok (.vfrozenset ys)
    | .error e => .error e
  | .vdict kvs =>
    match convertKeys env force kvs with
    | .ok ks =>
      match dictConstruct (.vlist ks) with
      | .ok d => .ok d
      | .error e => .error e
    | .error e => .error e
  | v => .ok v
termination_by structural v => v

/-- `_convert_to_dict` over the keys a dict yields when iterated. -/
def convertKeys (env : Env) (force : Bool) :
    List (PValue × PValue) → Except PErr (List PValue)
  | [] => .ok []
  | (k, _) :: rest =>
    match convertToDict env force k with
    | .ok y =>
      match convertKeys env force rest with
      | .ok ys => .ok (y :: ys)
      | .error e => .error e
    | .error e => .error e
termination_by structural kvs => kvs

/-- `_convert_to_dict` mapped over container elements. -/
def convertAll (env : Env) (force : Bool) : List PValue → Except PErr (List PValue)
  | [] => .ok []
  | x :: xs =>
    match convertToDict env force x with
    | .ok y =>
      match convertAll env force xs with
      | .ok ys => .ok (y :: ys)
      | .error e => .error e
    | .error e => .error e
termination_by structural xs => xs

/-- The comprehension of `as_dict` (line 314): each field name becomes a
string key, each field value is converted. -/
def asDictPairs (env : Env) (force : Bool) :
    List (String × PValue) → Except PErr (List (PValue × PValue))
  | [] => .ok []
  | (k, v) :: rest =>
    match convertToDict env force v with
    | .ok w =>
      match asDictPairs env force rest with
      | .ok ps => .ok ((.vstr k, w) :: ps)
      | .error e => .error e
    | .error e => .error e
termination_by structural fs => fs

end

/-- `instance.as_dict(force)` (lines 294-314) on an instance value. -/
def asDictTop (env : Env) (force : Bool) : PValue → Except PErr (List (PValue × PValue))
  | .vdc _ fs => asDictPairs env force fs
  | _ => .error .attributeError

/-- The round trip of the spec: flatten an instance with `as_dict` and
construct a new instance of the same schema by keyword-unpacking the
resulting dict (`PDC(**dict_form)`). -/
def reconstructFromDict (fuel : Nat) (env : Env) (cls : PDCClass) (inst : PValue) :
    Except PErr PValue :=
  match asDictTop env false inst with
  | .ok ps =>
    match kwargsOf ps with
    | .ok kw => mkInstance fuel env cls [] kw
    | .error e => .error e
  | .error e => .error e

/-- `occursBefore a b l`: `b` occurs strictly after the first occurrence of
`a` in `l`. -/
def occursBefore (a b : String) : List String → Bool
  | [] => false
  | x :: xs => if x = a then xs.contains b else occursBefore a b xs

/-- A valid topological order for a dependency graph: a duplicate-free list
containing every key, in which every dependency occurs strictly before the
item that depends on it.  A graph is acyclic (and self-loop-free) exactly
when such an order exists. -/
def validTopoOrder (g : List (String × List String)) (L : List String) : Prop :=
  L.Nodup ∧ (∀ k ∈ graphKeys g, k ∈ L) ∧ ∀ p ∈ g, ∀ d ∈ p.2, occursBefore d p.1 L = true

/-- Every dependency of every node is itself a node. -/
def depsSubKeys (g : List (String × List String)) : Prop :=
  ∀ p ∈ g, ∀ d ∈ p.2, d ∈ graphKeys g

/-- Field `x` declares a direct dependency on field `y`. -/
def dependsDirectlyB (fields : List FieldDesc) (x y : String) : Bool :=
  fields.any (fun f => f.name == x && f.dependsOn.contains y)

/-- The three dispatch paths of `__pdc_handle_fields__` for a field, plus
the skip path. -/
inductive FieldPath where
  | skipped
  | byFieldHandler
  | byTypeHandler
  | byGeneric
deriving DecidableEq

/-- Which path `__pdc_handle_fields__` takes for a field: skip beats the
field-name handler, which beats the type handler, which beats the generic
engine (lines 270-286). -/
def fieldPath (cls : PDCClass) (f : FieldDesc) : FieldPath :=
  if f.skipTypecasting then .skipped
  else if dhas cls.fieldHandlers f.name then .byFieldHandler
  else if dhas cls.typeHandlers f.ftype then .byTypeHandler
  else .byGeneric

/-- A handler-free, non-nullable, non-skipped field with no default. -/
def plainField (n : String) (t : PType) : FieldDesc := ⟨n, t, none, none, false, false, []⟩

/-- The nested schema of the round-trip scenario: two primitive fields
(`a : int`, `b : str`), no handlers, no metadata. -/
def nestedCls : PDCClass :=
  ⟨"Nested", [plainField "a" (.plain .rint), plainField "b" (.plain .rstr)], [], [],
    [plainField "a" (.plain .rint), plainField "b" (.plain .rstr)], false⟩

/-- The outer schema of the round-trip scenario: a primitive field, a
nested-record field and a sequence-of-records field, no handlers. -/
def outerCls : PDCClass :=
  ⟨"Outer", [plainField "x" (.plain .rint),
             plainField "nested" (.plain (.rdc "Nested")),
             plainField "nl" (.listOf (.plain (.rdc "Nested")))], [], [],
    [plainField "x" (.plain .rint),
     plainField "nested" (.plain (.rdc "Nested")),
     plainField "nl" (.listOf (.plain (.rdc "Nested")))], false⟩

/-- The environment of the round-trip scenario. -/
def rtEnv : Env := [("Nested", nestedCls), ("Outer", outerCls)]

/-- A schema with a single `int` field whose registered field handler adds
one to the supplied value — a legal PowerDataclass whose handler is not
idempotent. -/
def incCls : PDCClass :=
  ⟨"Inc", [plainField "x" (.plain .rint)],
    [("x", fun _ v => match v with | .vint n => .vint (n + 1) | w => w)], [],
    [plainField "x" (.plain .rint)], false⟩

/-- A well-formed value of the nested schema: an instance with exactly an
`int` field `a` and a `str` field `b`. -/
def conformNested : PValue → Prop
  | .vdc n fs =>
    n = "Nested" ∧ ∃ a b, fs = [("a", PValue.vint a), ("b", PValue.vstr b)]
  | _ => False

/-- A well-formed value of the outer schema. -/
def conformOuter : PValue → Prop
  | .vdc n fs =>
    n = "Outer" ∧ ∃ x nv ls, fs = [("x", PValue.vint x), ("nested", nv), ("nl", PValue.vlist ls)] ∧
      conformNested nv ∧ ∀ u ∈ ls, conformNested u
  | _ => False

/-- A concrete well-formed instance of the outer round-trip schema. -/
def sampleOuter : PValue :=
  .vdc "Outer" [("x", .vint 1),
    ("nested", .vdc "Nested" [("a", .vint 2), ("b", .vstr "z")]),
    ("nl", .vlist [.vdc "Nested" [("a", .vint 3), ("b", .vstr "w")]])]

/-- The instance produced by constructing the outer schema from raw data
(a numeric string, a dict of raw field values, and a list of dicts). -/
def builtOuter : PValue :=
  .vdc "Outer" [("x", .vint 7),
    ("nested", .vdc "Nested" [("a", .vint 5), ("b", .vstr "6")]),
    ("nl", .vlist [.vdc "Nested" [("a", .vint 8), ("b", .vstr "q")]])]

/-- C1: evaluation of the registry merge on a three-level chain (values
stand for handlers; `0` is the grandparent's declaration, `1` the parent's
override, the child declares nothing).  Because `PowerDataclassBase.__new__`
iterates `klass.__mro__` most-derived-first and merges with `dict.update`,
the most-base ancestor's entry lands last and wins: the child's finalized
registries map the key to the grandparent's handler, not the parent's —
for the field-name registry and the declared-type registry alike.  This
contradicts the claim, under which the child would inherit the parent's
override. -/
theorem claim1_mro_merge_eval :
    dlookup (finalFieldReg [⟨[("x", 0)], []⟩, ⟨[("x", 1)], []⟩, ⟨[], []⟩]) "x" = some 0 ∧
    dlookup (finalTypeReg [⟨[], [(.plain .rbool, 0)]⟩, ⟨[], [(.plain .rbool, 1)]⟩, ⟨[], []⟩])
      (.plain .rbool) = some 0 ∧
    (0 : Nat) ≠ 1 :=
  ⟨rfl, rfl, by decide⟩

/-- C3: the same non-mapping value `5` against two mapping targets.  With
`Dict[int, int]` the guard at line 76 fails and a `ValueError` is raised as
the claim says; but with `Dict[int, dict]` the declared value type `dict`
is a `Mapping` subclass, and — because line 73 rebinds `value_type` to the
declared value type — the guard passes and `value.items()` raises
`AttributeError` instead.  The claim's "regardless of what the declared key
and value types K and V are" is therefore wrong on the code; the spec's
"fail with a value error if `value` does not expose key/value pairs" is
clearly the intent and the rebinding a slip. -/
theorem claim3_mapping_guard_shadowed_eval :
    powercast 5 [] (.vint 5) (.dictOf (.plain .rint) (.plain .rint)) [] =
      .error .valueError ∧
    powercast 5 [] (.vint 5) (.dictOf (.plain .rint) (.plain .rdict)) [] =
      .error .attributeError :=
  ⟨rfl, rfl⟩

/-- C2 (counterexample): with the override table `{int: const 99}`, coercing
the string key `"3"` directly to `int` applies the override (result `99`),
but inside `coerce({"3": "4"}, Dict[int, int])` the key is coerced *without*
the table (line 80 passes no `type_casters` for keys) and generic
construction produces `3`; only the value gets the override.  So keys of
mapping targets are not coerced with the same override table, contrary to
the claim. -/
theorem claim2_counterexample :
    powercast 5 [] (.vstr "3") (.plain .rint) [(.plain .rint, fun _ => .vint 99)] =
      .ok (.vint 99) ∧
    powercast 5 [] (.vdict [(.vstr "3", .vstr "4")])
      (.dictOf (.plain .rint) (.plain .rint)) [(.plain .rint, fun _ => .vint 99)] =
      .ok (.vdict [(.vint 3, .vint 99)]) ∧
    PValue.vint 3 ≠ PValue.vint 99 :=
  ⟨rfl, rfl, by simp⟩

/-- C6 (counterexample): a schema whose only field depends on itself — a
cyclic dependency graph `{a: {a}}` — finalizes without error, because
`toposort.toposort` discards self-dependencies (`v.discard(k)`) before
looking for cycles.  The claim says any cycle raises at definition time. -/
theorem claim6_counterexample :
    isOk (finalizeClass "PDC" [⟨"a", .plain .rint, none, none, false, false, ["a"]⟩]
      [("a", fun _ v => v)] [] false) = true :=
  rfl

/-- C8 (counterexample): two dependency-free fields declared in the order
`b`, `a`.  The fast path returns them in declaration order `[b, a]`, but
running the topological sort on the edgeless graph returns `["a", "b"]`
because `toposort_flatten` is called with its default `sort=True`, which
sorts every batch of ready nodes lexicographically.  The two paths are
observably different, contrary to the claim. -/
theorem claim8_counterexample :
    determineFieldHandlingOrder [plainField "b" (.plain .rint), plainField "a" (.plain .rint)] =
      .ok [plainField "b" (.plain .rint), plainField "a" (.plain .rint)] ∧
    toposortFlatten (dependencyGraph
      [plainField "b" (.plain .rint), plainField "a" (.plain .rint)]) = .ok ["a", "b"] ∧
    (["a", "b"] : List String) ≠
      ([plainField "b" (.plain .rint), plainField "a" (.plain .rint)].map FieldDesc.name) :=
  ⟨rfl, rfl, by decide⟩

/-- C9 (counterexample): a successfully constructed instance of a schema
with a (perfectly legal) non-idempotent field handler `x ↦ x + 1`:
construction from `1` stores `2`, but flattening and reconstructing runs
the handler again and yields `3` — not an equal instance.  The claim,
quantified over every successfully constructed instance, is therefore
false; it holds only for handler-free (and skip-free) schemas. -/
theorem claim9_counterexample :
    mkInstance 5 [] incCls [.vint 1] [] = .ok (.vdc "Inc" [("x", .vint 2)]) ∧
    (mkInstance 5 [] incCls [.vint 1] []).bind (reconstructFromDict 5 [] incCls) =
      .ok (.vdc "Inc" [("x", .vint 3)]) ∧
    PValue.vdc "Inc" [("x", .vint 3)] ≠ PValue.vdc "Inc" [("x", .vint 2)] :=
  ⟨rfl, rfl, by simp⟩

/-- C2 (amended): when the target type has an entry in the override table
and the value is not already of the target type (the identity fast path at
line 38 precedes the override check), `coerce` applies the override and
performs no generic construction; sequence targets coerce every element
recursively with the same override table; mapping targets coerce every
value with the same table but every key with an *empty* table, because the
key cast at line 80 omits the `type_casters` argument (`castPairs` passes
`[]` for keys by definition). -/
theorem claim2_override_recursion
    (fuel : Nat) (env : Env) (v : PValue) (t kt vt : PType)
    (cs : List (PType × (PValue → PValue))) (f : PValue → PValue)
    (xs : List PValue) (kvs : List (PValue × PValue)) (b : Bool) :
    (dlookup cs t = some f → t ≠ .plain (runtimeClass v) →
      powercast (fuel + 1) env v t cs = .ok (f v)) ∧
    (dlookup cs (.listOf t) = none → t ≠ .tvar →
      powercast (fuel + 1) env (.vlist xs) (.listOf t) cs =
        match castElems (powercast fuel env) t cs xs with
        | .ok ys => .ok (.vlist ys)
        | .error e => .error e) ∧
    (dlookup cs (.tupleOf t) = none → t ≠ .tvar →
      powercast (fuel + 1) env (.vtuple xs) (.tupleOf t) cs =
        match castElems (powercast fuel env) t cs xs with
        | .ok ys => .ok (.vtuple ys)
        | .error e => .error e) ∧
    (dlookup cs (.dictOf kt vt) = none → kt ≠ .tvar → vt ≠ .tvar →
      issubclassOfMapping vt = .ok b →
      powercast (fuel + 1) env (.vdict kvs) (.dictOf kt vt) cs =
        match castPairs (powercast fuel env) kt vt cs kvs with
        | .ok ps => .ok (.vdict (pdictOfPairs ps))
        | .error e => .error e) := by
  refine ⟨fun h1 h2 => ?_, fun h1 h2 => ?_, fun h1 h2 => ?_, fun h1 h2 h3 h4 => ?_⟩
  · simp [powercast, h1, h2]
  · simp [powercast, h1, h2, iterElems, isIterableClass, runtimeClass]
  · simp [powercast, h1, h2, iterElems, isIterableClass, runtimeClass]
  · simp [powercast, h1, h2, h3, h4, hasItems, runtimeClass]

/-- Witness for `claim2_override_recursion`: the override applies to a
string coerced to `int`, list elements get the table, and in a mapping the
value is overridden while the key is not. -/
theorem claim2_override_recursion_witness :
    powercast 3 [] (.vstr "7") (.plain .rint) [(.plain .rint, fun _ => .vint 5)] =
      .ok (.vint 5) ∧
    powercast 3 [] (.vdict [(.vstr "3", .vstr "4")])
      (.dictOf (.plain .rint) (.plain .rint)) [(.plain .rint, fun _ => .vint 5)] =
      match castPairs (powercast 2 []) (.plain .rint) (.plain .rint)
        [(.plain .rint, fun _ => .vint 5)] [(.vstr "3", .vstr "4")] with
      | .ok ps => .ok (.vdict (pdictOfPairs ps))
      | .error e => .error e := by
  constructor
  · exact (claim2_override_recursion 2 [] (.vstr "7") (.plain .rint) (.plain .rint)
      (.plain .rint) [(.plain .rint, fun _ => .vint 5)] (fun _ => .vint 5) [] [] false).1
      rfl (by simp [runtimeClass])
  · exact (claim2_override_recursion 2 [] (.vdict [(.vstr "3", .vstr "4")]) (.plain .rint)
      (.plain .rint) (.plain .rint) [(.plain .rint, fun _ => .vint 5)] (fun _ => .vint 5)
      [] [(.vstr "3", .vstr "4")] false).2.2.2 rfl (by simp) (by simp) rfl

/-- C4: for a field not marked `skip_typecasting`, the pipeline dispatch of
`__pdc_handle_fields__` (lines 273-286): a registered field-name handler is
called and its result stored, with neither the type handler nor the
generic engine involved (the result mentions only the field handler); with
no field-name handler, a registered type handler for the declared type is
called the same way; with neither, the generic branch `genericFieldStep`
(null rule plus `powercast` with the bound type handlers) runs.  The
`fieldPath` function certifies that exactly one of the three paths is
taken. -/
theorem claim4_dispatch_precedence
    (pc : PValue → PType → List (PType × (PValue → PValue)) → Except PErr PValue)
    (cls : PDCClass) (inst : List (String × PValue)) (f : FieldDesc) (v : PValue)
    (hv : dlookup inst f.name = some v) (hskip : f.skipTypecasting = false) :
    (∀ h, dlookup cls.fieldHandlers f.name = some h →
      fieldPath cls f = .byFieldHandler ∧
      handleFieldWith pc cls inst f = .ok (dinsert inst f.name (h inst v))) ∧
    (dlookup cls.fieldHandlers f.name = none →
      ∀ h, dlookup cls.typeHandlers f.ftype = some h →
      fieldPath cls f = .byTypeHandler ∧
      handleFieldWith pc cls inst f = .ok (dinsert inst f.name (h inst v))) ∧
    (dlookup cls.fieldHandlers f.name = none →
      dlookup cls.typeHandlers f.ftype = none →
      fieldPath cls f = .byGeneric ∧
      handleFieldWith pc cls inst f = genericFieldStep pc cls inst f v) := by
  refine ⟨fun h hf => ⟨?_, ?_⟩, fun hf h ht => ⟨?_, ?_⟩, fun hf ht => ⟨?_, ?_⟩⟩ <;>
    simp [fieldPath, handleFieldWith, dhas, hskip, hv, hf] <;>
    simp [ht]

/-- Witness for `claim4_dispatch_precedence`: a field with both a field
handler and a type handler registered takes the field-handler path. -/
theorem claim4_dispatch_precedence_witness :
    fieldPath ⟨"C", [plainField "x" (.plain .rint)],
        [("x", fun _ _ => .vint 7)], [(.plain .rint, fun _ _ => .vint 8)],
        [plainField "x" (.plain .rint)], false⟩ (plainField "x" (.plain .rint)) =
      .byFieldHandler ∧
    handleFieldWith (fun _ _ _ => .error .typeError)
      ⟨"C", [plainField "x" (.plain .rint)],
        [("x", fun _ _ => .vint 7)], [(.plain .rint, fun _ _ => .vint 8)],
        [plainField "x" (.plain .rint)], false⟩
      [("x", .vint 1)] (plainField "x" (.plain .rint)) =
      .ok [("x", .vint 7)] :=
  (claim4_dispatch_precedence (fun _ _ _ => .error .typeError)
    ⟨"C", [plainField "x" (.plain .rint)],
      [("x", fun _ _ => .vint 7)], [(.plain .rint, fun _ _ => .vint 8)],
      [plainField "x" (.plain .rint)], false⟩
    [("x", .vint 1)] (plainField "x" (.plain .rint)) (.vint 1) rfl rfl).1
    (fun _ _ => .vint 7) rfl

/-- `isNoneV` decides being the null value. -/
theorem isNoneV_eq_false {v : PValue} : isNoneV v = false ↔ v ≠ PValue.vnone := by
  cases v <;> simp [isNoneV]

/-- If the generic branch fails on a non-null value, the failure came from
the coercion engine call itself. -/
theorem genericFieldStep_error_of_ne_none
    (pc : PValue → PType → List (PType × (PValue → PValue)) → Except PErr PValue)
    (cls : PDCClass) (inst : List (String × PValue)) (f : FieldDesc) (v : PValue)
    (err : PErr) (hres : genericFieldStep pc cls inst f v = .error err)
    (hne : v ≠ .vnone) : pc v f.ftype (boundTypeCasters cls inst) = .error err := by
  rw [genericFieldStep, isNoneV_eq_false.mpr hne] at hres
  simp only [Bool.false_eq_true, if_false] at hres
  rcases hcast : pc v f.ftype (boundTypeCasters cls inst) with w | e
  · rw [hcast] at hres
    simp only [Except.error.injEq] at hres
    rw [hres]
  · rw [hcast] at hres; simp at hres

/-- C5: for a field whose current value is bound, and a coercion engine
that never itself produces this field's null-validation error (as
`powercast` cannot for the field's own class and name when class names are
unambiguous), the pipeline raises the `ValueError` naming the record type
and the field exactly when the value is null, no field-name or type handler
applies, the field is not nullable, declares no non-missing default, and is
not skip-marked; and with `nullable` set or a default declared, the null is
accepted and the instance is left unchanged (the field keeps its null). -/
theorem claim5_null_validation
    (pc : PValue → PType → List (PType × (PValue → PValue)) → Except PErr PValue)
    (cls : PDCClass) (inst : List (String × PValue)) (f : FieldDesc) (v : PValue)
    (hv : dlookup inst f.name = some v)
    (hpc : ∀ w t ct, pc w t ct ≠ .error (.noneNotAllowed cls.name f.name)) :
    (handleFieldWith pc cls inst f = .error (.noneNotAllowed cls.name f.name) ↔
      (f.skipTypecasting = false ∧ dlookup cls.fieldHandlers f.name = none ∧
       dlookup cls.typeHandlers f.ftype = none ∧ v = .vnone ∧
       f.nullable = false ∧ f.default = none)) ∧
    ((f.skipTypecasting = false ∧ dlookup cls.fieldHandlers f.name = none ∧
      dlookup cls.typeHandlers f.ftype = none ∧ v = .vnone ∧
      (f.nullable = true ∨ f.default.isSome = true)) →
      handleFieldWith pc cls inst f = .ok inst) := by
  constructor
  · constructor
    · intro hres
      simp only [handleFieldWith, hv] at hres
      cases hskip : f.skipTypecasting
      case true => simp [hskip] at hres
      rcases hfh : dlookup cls.fieldHandlers f.name with _ | h
      case some => simp [hskip, hfh] at hres
      rcases hth : dlookup cls.typeHandlers f.ftype with _ | h
      case some => simp [hskip, hfh, hth] at hres
      simp only [hskip, hfh, hth, Bool.false_eq_true, if_false] at hres
      refine ⟨rfl, rfl, rfl, ?_⟩
      by_cases hnv : v = PValue.vnone
      · subst hnv
        rw [genericFieldStep] at hres
        simp only [isNoneV, if_true] at hres
        cases hnd : (f.nullable || f.default.isSome) with
        | true => rw [hnd] at hres; simp at hres
        | false =>
          rw [hnd] at hres
          rcases Bool.or_eq_false_iff.mp hnd with ⟨hnul, hdef⟩
          refine ⟨rfl, hnul, ?_⟩
          rcases hdf : f.default with _ | d
          · rfl
          · rw [hdf] at hdef; simp at hdef
      · exact absurd (genericFieldStep_error_of_ne_none pc cls inst f v _ hres hnv)
          (hpc v f.ftype (boundTypeCasters cls inst))
    · rintro ⟨hskip, hfh, hth, hveq, hnul, hdef⟩
      subst hveq
      simp [handleFieldWith, hv, hskip, hfh, hth, genericFieldStep, isNoneV, hnul, hdef]
  · rintro ⟨hskip, hfh, hth, hveq, hnd⟩
    subst hveq
    rcases hnd with hnul | hdef
    · simp [handleFieldWith, hv, hskip, hfh, hth, genericFieldStep, isNoneV, hnul]
    · simp [handleFieldWith, hv, hskip, hfh, hth, genericFieldStep, isNoneV, hdef]

/-- Witness for `claim5_null_validation`: a null value on a non-nullable,
handler-less, default-less field raises the named validation error, and
the same field marked nullable accepts the null unchanged. -/
theorem claim5_null_validation_witness :
    handleFieldWith (fun _ _ _ => .error .typeError)
      ⟨"C", [plainField "x" (.plain .rint)], [], [],
        [plainField "x" (.plain .rint)], false⟩
      [("x", .vnone)] (plainField "x" (.plain .rint)) =
      .error (.noneNotAllowed "C" "x") ∧
    handleFieldWith (fun _ _ _ => .error .typeError)
      ⟨"C", [⟨"x", .plain .rint, none, none, false, true, []⟩], [], [],
        [⟨"x", .plain .rint, none, none, false, true, []⟩], false⟩
      [("x", .vnone)] ⟨"x", .plain .rint, none, none, false, true, []⟩ =
      .ok [("x", .vnone)] := by
  constructor
  · exact (claim5_null_validation (fun _ _ _ => .error .typeError)
      ⟨"C", [plainField "x" (.plain .rint)], [], [],
        [plainField "x" (.plain .rint)], false⟩
      [("x", .vnone)] (plainField "x" (.plain .rint)) .vnone rfl
      (by intro w t ct; simp)).1.mpr ⟨rfl, rfl, rfl, rfl, rfl, rfl⟩
  · exact (claim5_null_validation (fun _ _ _ => .error .typeError)
      ⟨"C", [⟨"x", .plain .rint, none, none, false, true, []⟩], [], [],
        [⟨"x", .plain .rint, none, none, false, true, []⟩], false⟩
      [("x", .vnone)] ⟨"x", .plain .rint, none, none, false, true, []⟩ .vnone rfl
      (by intro w t ct; simp)).2 ⟨rfl, rfl, rfl, rfl, Or.inl rfl⟩

/-- C10: a null supplied value on a field whose descriptor declares a
`default_factory` but no literal default still raises the validation
error: the check at line 280 tests only `field.default is not MISSING`, so
a factory-produced default does not suppress the null error. -/
theorem claim10_factory_no_default
    (pc : PValue → PType → List (PType × (PValue → PValue)) → Except PErr PValue)
    (cls : PDCClass) (inst : List (String × PValue)) (f : FieldDesc) (w : PValue)
    (hv : dlookup inst f.name = some .vnone)
    (hskip : f.skipTypecasting = false)
    (hfh : dlookup cls.fieldHandlers f.name = none)
    (hth : dlookup cls.typeHandlers f.ftype = none)
    (hnul : f.nullable = false)
    (hdef : f.default = none)
    (hfac : f.defaultFactory = some w) :
    handleFieldWith pc cls inst f = .error (.noneNotAllowed cls.name f.name) := by
  simp [handleFieldWith, hv, hskip, hfh, hth, genericFieldStep, isNoneV, hnul, hdef]

/-- Witness for `claim10_factory_no_default`: a field with a declared
default factory (producing `0`) still errors on an explicit null. -/
theorem claim10_factory_no_default_witness :
    handleFieldWith (fun _ _ _ => .error .typeError)
      ⟨"C", [⟨"x", .plain .rint, none, some (.vint 0), false, false, []⟩], [], [],
        [⟨"x", .plain .rint, none, some (.vint 0), false, false, []⟩], false⟩
      [("x", .vnone)] ⟨"x", .plain .rint, none, some (.vint 0), false, false, []⟩ =
      .error (.noneNotAllowed "C" "x") :=
  claim10_factory_no_default (fun _ _ _ => .error .typeError) _ [("x", .vnone)]
    ⟨"x", .plain .rint, none, some (.vint 0), false, false, []⟩ (.vint 0)
    rfl rfl rfl rfl rfl rfl rfl

/-- On an edgeless graph, one round of the toposort loop emits every key,
sorted. -/
theorem kahnFuel_edgeless (fuel : Nat) (g : List (String × List String))
    (hg : ∀ p ∈ g, p.2 = []) (hne : g ≠ []) :
    kahnFuel (fuel + 1) g = .ok (sortStrings (graphKeys g)) := by
  cases g with
  | nil => exact absurd rfl hne
  | cons p ps =>
    have hready : readyKeys (p :: ps) = graphKeys (p :: ps) := by
      unfold readyKeys graphKeys
      congr 1
      apply List.filter_eq_self.mpr
      intro q hq
      simp [hg q hq]
    have hrest : kahnRest (p :: ps) (readyKeys (p :: ps)) = [] := by
      unfold kahnRest
      rw [List.map_eq_nil_iff]
      apply List.filter_eq_nil_iff.mpr
      intro q hq
      rw [hready]
      have h1 : (graphKeys (p :: ps)).contains q.1 = true :=
        List.elem_eq_true_of_mem (List.mem_map_of_mem Prod.fst hq)
      rw [h1]
      simp
    have hne2 : (readyKeys (p :: ps)).isEmpty = false := by
      rw [hready]
      simp [graphKeys]
    rw [kahnFuel]
    simp only [hne2, Bool.false_eq_true, if_false, hrest]
    rw [show kahnFuel fuel ([] : List (String × List String)) = .ok [] from by
      cases fuel <;> rfl]
    simp [hready]
    simp

/-- Discarding self-dependencies is the identity on an edgeless graph. -/
theorem discardSelf_edgeless (g : List (String × List String))
    (hg : ∀ p ∈ g, p.2 = []) : discardSelf g = g := by
  induction g with
  | nil => rfl
  | cons p ps ih =>
    obtain ⟨a, b⟩ := p
    have hp : b = [] := hg (a, b) (List.mem_cons_self _ _)
    subst hp
    have hps := ih (fun q hq => hg q (List.mem_cons_of_mem (a, []) hq))
    unfold discardSelf at hps ⊢
    simp only [List.map_cons, hps, List.filter_nil]

/-- An edgeless graph has no dependency-only items. -/
theorem extraItems_edgeless (g : List (String × List String))
    (hg : ∀ p ∈ g, p.2 = []) : extraItems g = [] := by
  unfold extraItems
  have hfl : (g.map Prod.snd).flatten = [] := by
    rw [List.flatten_eq_nil_iff]
    intro l hl
    obtain ⟨p, hp, rfl⟩ := List.mem_map.mp hl
    exact hg p hp
  rw [hfl]
  rfl

/-- `toposort_flatten` on an edgeless graph returns the keys sorted
lexicographically. -/
theorem toposortFlatten_edgeless (g : List (String × List String))
    (hg : ∀ p ∈ g, p.2 = []) :
    toposortFlatten g = .ok (sortStrings (graphKeys g)) := by
  cases g with
  | nil => rfl
  | cons p ps =>
    unfold toposortFlatten
    simp only [List.isEmpty_cons, Bool.false_eq_true, if_false]
    rw [discardSelf_edgeless _ hg, extraItems_edgeless _ hg]
    simp only [List.map_nil, List.append_nil]
    exact kahnFuel_edgeless ps.length _ hg (by simp)

/-- C8 (amended): for a schema in which no field declares a dependency, the
fast path returns the fields in original declaration order; running the
topological sort on the edgeless dependency graph instead returns the field
names sorted lexicographically (because `toposort_flatten` defaults to
`sort=True`).  The two agree exactly when the declaration order happens to
be sorted by name, so the bail-out is not observably equivalent in general
— it changes the processing order, though not the set of fields
processed. -/
theorem claim8_fast_path_order (fields : List FieldDesc)
    (hnd : ∀ f ∈ fields, f.dependsOn = []) :
    determineFieldHandlingOrder fields = .ok fields ∧
    toposortFlatten (dependencyGraph fields) =
      .ok (sortStrings (fields.map FieldDesc.name)) := by
  constructor
  · unfold determineFieldHandlingOrder
    have hany : fields.any (fun f => !f.dependsOn.isEmpty) = false := by
      rw [List.any_eq_false]
      intro f hf
      simp [hnd f hf]
    rw [hany]
    rfl
  · have hg : ∀ p ∈ dependencyGraph fields, p.2 = [] := by
      intro p hp
      obtain ⟨f, hf, rfl⟩ := List.mem_map.mp hp
      exact hnd f hf
    rw [toposortFlatten_edgeless _ hg]
    unfold graphKeys dependencyGraph
    rw [List.map_map]
    rfl

/-- Witness for `claim8_fast_path_order` on the two-field schema declared
in the order `b`, `a`. -/
theorem claim8_fast_path_order_witness :
    determineFieldHandlingOrder [plainField "b" (.plain .rint), plainField "a" (.plain .rint)] =
      .ok [plainField "b" (.plain .rint), plainField "a" (.plain .rint)] ∧
    toposortFlatten (dependencyGraph
      [plainField "b" (.plain .rint), plainField "a" (.plain .rint)]) =
      .ok (sortStrings (["b", "a"] : List String)) :=
  claim8_fast_path_order [plainField "b" (.plain .rint), plainField "a" (.plain .rint)]
    (by decide)

/-- A string absent from a list is not `contains`-found. -/
theorem contains_eq_false_of_not_mem {l : List String} {a : String} (h : a ∉ l) :
    l.contains a = false := by
  cases hc : l.contains a
  · rfl
  · exact absurd (List.mem_of_elem_eq_true hc) h

/-- In a graph with duplicate-free keys an item determines its entry. -/
theorem deps_unique {g : List (String × List String)} (hnd : (graphKeys g).Nodup)
    {k : String} {ds ds' : List String} (h1 : (k, ds) ∈ g) (h2 : (k, ds') ∈ g) :
    ds = ds' := by
  induction g with
  | nil => cases h1
  | cons p ps ih =>
    rcases List.nodup_cons.mp hnd with ⟨hpk, hnd2⟩
    rcases List.mem_cons.mp h1 with he1 | hm1 <;> rcases List.mem_cons.mp h2 with he2 | hm2
    · exact ((Prod.mk.injEq _ _ _ _).mp (he1.trans he2.symm)).2
    · exact absurd (show p.1 ∈ ps.map Prod.fst by
        rw [← he1]; simpa using List.mem_map_of_mem Prod.fst hm2) hpk
    · exact absurd (show p.1 ∈ ps.map Prod.fst by
        rw [← he2]; simpa using List.mem_map_of_mem Prod.fst hm1) hpk
    · exact ih hnd2 hm1 hm2

/-- With duplicate-free keys, an item with a non-empty dependency entry is
not ready. -/
theorem not_ready_of_deps {g : List (String × List String)}
    (hnd : (graphKeys g).Nodup) {k : String} {ds : List String}
    (h : (k, ds) ∈ g) (hds : ds ≠ []) : k ∉ readyKeys g := by
  intro hk
  obtain ⟨p, hp, hpk⟩ := List.mem_map.mp hk
  have hpf := List.mem_of_mem_filter hp
  have hpe := List.of_mem_filter hp
  simp only at hpe
  have hpg : (k, p.2) ∈ g := by
    rw [← hpk]
    simpa using hpf
  have hd2 := deps_unique hnd h hpg
  exact hds (hd2.trans (List.isEmpty_iff.mp hpe))

/-- The keys of the post-round graph form a sublist of the keys. -/
theorem kahnRest_keys_sublist (g : List (String × List String)) (ready : List String) :
    List.Sublist (graphKeys (kahnRest g ready)) (graphKeys g) := by
  unfold graphKeys kahnRest
  rw [List.map_map]
  have : (Prod.fst ∘ fun p : String × List String =>
      (p.1, p.2.filter (fun d => !ready.contains d))) = Prod.fst := by
    funext p
    rfl
  rw [this]
  exact (g.filter_sublist).map Prod.fst

/-- A surviving item keeps its (ready-filtered) entry after a round. -/
theorem kahnRest_entry {g : List (String × List String)} {ready : List String}
    {k : String} {ds : List String} (hk : (k, ds) ∈ g)
    (hkc : ready.contains k = false) :
    (k, ds.filter (fun d => !ready.contains d)) ∈ kahnRest g ready := by
  unfold kahnRest
  have hmem : (k, ds) ∈ g.filter (fun p => !ready.contains p.1) :=
    List.mem_filter.mpr ⟨hk, by rw [hkc]; rfl⟩
  exact List.mem_map.mpr ⟨(k, ds), hmem, rfl⟩

/-- If some set of items `cyc` is closed under "has a dependency inside
`cyc`", the toposort loop can never succeed: the `cyc` items are never
ready and survive every round. -/
theorem kahnFuel_no_ok (cyc : List String) (hcne : cyc ≠ []) :
    ∀ (fuel : Nat) (g : List (String × List String)), (graphKeys g).Nodup →
    (∀ x ∈ cyc, ∃ ds, (x, ds) ∈ g ∧ ∃ y ∈ cyc, y ∈ ds) →
    isOk (kahnFuel fuel g) = false := by
  intro fuel
  induction fuel with
  | zero =>
    intro g hnd hinv
    obtain ⟨x, hx⟩ := List.exists_mem_of_ne_nil cyc hcne
    obtain ⟨ds, hds, _⟩ := hinv x hx
    cases g with
    | nil => cases hds
    | cons p ps => rfl
  | succ fuel ih =>
    intro g hnd hinv
    obtain ⟨x0, hx0⟩ := List.exists_mem_of_ne_nil cyc hcne
    obtain ⟨ds0, hds0, _⟩ := hinv x0 hx0
    cases g with
    | nil => cases hds0
    | cons p ps =>
      rw [kahnFuel]
      cases hre : (readyKeys (p :: ps)).isEmpty
      · simp only [Bool.false_eq_true, if_false]
        have hrest := ih (kahnRest (p :: ps) (readyKeys (p :: ps)))
          (hnd.sublist (kahnRest_keys_sublist (p :: ps) (readyKeys (p :: ps))))
          (by
            intro x hx
            obtain ⟨ds, hds, y, hy, hyds⟩ := hinv x hx
            obtain ⟨dsy, hdsy, z, hz, hzds⟩ := hinv y hy
            have hxnr : x ∉ readyKeys (p :: ps) :=
              not_ready_of_deps hnd hds (List.ne_nil_of_mem hyds)
            have hynr : y ∉ readyKeys (p :: ps) :=
              not_ready_of_deps hnd hdsy (List.ne_nil_of_mem hzds)
            refine ⟨ds.filter (fun d => !(readyKeys (p :: ps)).contains d),
              kahnRest_entry hds (contains_eq_false_of_not_mem hxnr), y, hy, ?_⟩
            refine List.mem_filter.mpr ⟨hyds, ?_⟩
            rw [contains_eq_false_of_not_mem hynr]
            rfl)
        cases hres : kahnFuel fuel (kahnRest (p :: ps) (readyKeys (p :: ps)))
        · rfl
        · rw [hres] at hrest
          exact absurd hrest (by simp [isOk])
      · simp only [if_true]
        rfl
      · simp

/-- `dependsDirectlyB` unpacked. -/
theorem dependsDirectlyB_iff {fields : List FieldDesc} {x y : String} :
    dependsDirectlyB fields x y = true ↔ ∃ f ∈ fields, f.name = x ∧ y ∈ f.dependsOn := by
  unfold dependsDirectlyB
  rw [List.any_eq_true]
  constructor
  · rintro ⟨f, hf, hp⟩
    rw [Bool.and_eq_true] at hp
    exact ⟨f, hf, by simpa using hp.1, List.mem_of_elem_eq_true hp.2⟩
  · rintro ⟨f, hf, h1, h2⟩
    refine ⟨f, hf, ?_⟩
    rw [Bool.and_eq_true]
    exact ⟨by simpa using h1, List.elem_eq_true_of_mem h2⟩

/-- Along a chain, every element except the last has a successor within the
chain. -/
theorem chain_mem_succ {R : String → String → Prop} :
    ∀ {l : List String} {b : String}, List.Chain R b l →
    ∀ x ∈ b :: l, (∃ y ∈ b :: l, R x y) ∨ x = (b :: l).getLast (by simp) := by
  intro l
  induction l with
  | nil =>
    intro b _ x hx
    right
    simpa using hx
  | cons c t ih =>
    intro b hch x hx
    rcases List.chain_cons.mp hch with ⟨hbc, hct⟩
    rcases List.mem_cons.mp hx with rfl | hx2
    · exact Or.inl ⟨c, by simp, hbc⟩
    · rcases ih hct x hx2 with ⟨y, hy, hR⟩ | hlast
      · exact Or.inl ⟨y, List.mem_cons_of_mem _ hy, hR⟩
      · right
        rw [hlast]
        exact (List.getLast_cons (by simp)).symm

/-- On a cyclic chain of distinct-step dependency edges, every element of
the cycle has a dependency successor inside the cycle. -/
theorem cycle_closed {fields : List FieldDesc} {a : String} {rest : List String}
    (h : List.Chain (fun x y => dependsDirectlyB fields x y = true ∧ x ≠ y) a (rest ++ [a])) :
    ∀ x ∈ a :: rest, ∃ y ∈ a :: rest, dependsDirectlyB fields x y = true ∧ x ≠ y := by
  intro x hx
  have hx2 : x ∈ a :: (rest ++ [a]) := by
    rcases List.mem_cons.mp hx with rfl | hm
    · exact List.mem_cons_self _ _
    · exact List.mem_cons_of_mem _ (List.mem_append_left _ hm)
  rcases chain_mem_succ h x hx2 with ⟨y, hy, hR⟩ | hlast
  · refine ⟨y, ?_, hR⟩
    rcases List.mem_cons.mp hy with rfl | hm
    · exact List.mem_cons_self _ _
    · rcases List.mem_append.mp hm with h1 | h2
      · exact List.mem_cons_of_mem _ h1
      · have : y = a := by simpa using h2
        rw [this]
        exact List.mem_cons_self _ _
  · have hxa : x = a := by
      have h1 : (a :: (rest ++ [a])).getLast? = some a := by
        rw [show a :: (rest ++ [a]) = (a :: rest) ++ [a] from by simp]
        exact List.getLast?_concat _
      have h2 : (a :: (rest ++ [a])).getLast? =
          some ((a :: (rest ++ [a])).getLast (by simp)) :=
        List.getLast?_eq_getLast _ (by simp)
      rw [hlast]
      exact (Option.some.inj (h2.symm.trans h1))
    subst hxa
    cases rest with
    | nil =>
      rcases List.chain_cons.mp h with ⟨⟨_, hne⟩, _⟩
      exact absurd rfl hne
    | cons r rt =>
      exact ⟨r, by simp, (List.chain_cons.mp h).1⟩

/-- C6 (amended): at type-definition (finalization) time, before any
instance can be constructed: a field declaring a non-empty
`depends_on_fields` without a registered field-name handler makes
finalization fail with `MissingFieldHandler`, naming an offending field;
and a dependency cycle through at least two distinct fields (a chain of
direct dependency edges with distinct endpoints leading back to its start)
makes finalization fail.  A field that depends only on *itself* is not an
error — `toposort` silently discards self-dependencies (see the
counterexample). -/
theorem claim6_definition_time_errors
    (name : String) (fields : List FieldDesc)
    (freg : List (String × Handler)) (treg : List (PType × Handler)) (ign : Bool)
    (hnames : (fields.map FieldDesc.name).Nodup) :
    ((∃ f ∈ fields, f.dependsOn ≠ [] ∧ dlookup freg f.name = none) →
      ∃ g, g ∈ fields ∧ g.dependsOn ≠ [] ∧ dlookup freg g.name = none ∧
        finalizeClass name fields freg treg ign =
          .error (.missingFieldHandler name g.name)) ∧
    (∀ (a : String) (rest : List String),
      List.Chain (fun x y => dependsDirectlyB fields x y = true ∧ x ≠ y) a (rest ++ [a]) →
      isOk (finalizeClass name fields freg treg ign) = false) := by
  constructor
  · rintro ⟨f, hf, hdep, hno⟩
    have hpred : (fun f : FieldDesc => !f.dependsOn.isEmpty && !dhas freg f.name) f = true := by
      simp only [Bool.and_eq_true, Bool.not_eq_true']
      constructor
      · simpa [List.isEmpty_iff] using hdep
      · simp [dhas, hno]
    have hsome : (fields.find? (fun f => !f.dependsOn.isEmpty && !dhas freg f.name)).isSome :=
      List.find?_isSome.mpr ⟨f, hf, hpred⟩
    obtain ⟨g0, hg0⟩ := Option.isSome_iff_exists.mp hsome
    have hg0p := List.find?_some hg0
    have hg0m := List.mem_of_find?_eq_some hg0
    rw [Bool.and_eq_true] at hg0p
    rcases hg0p with ⟨hp1, hp2⟩
    refine ⟨g0, hg0m, ?_, ?_, ?_⟩
    · intro he
      rw [he] at hp1
      simp at hp1
    · rcases hl : dlookup freg g0.name with _ | v
      · rfl
      · rw [Bool.not_eq_true'] at hp2
        simp [dhas, hl] at hp2
    · unfold finalizeClass checkCalculatable
      rw [hg0]
  · intro a rest hch
    have hclosed := cycle_closed hch
    obtain ⟨y0, _, he0, _⟩ := hclosed a (List.mem_cons_self _ _)
    obtain ⟨f0, hf0, _, hf0d⟩ := dependsDirectlyB_iff.mp he0
    have hany : fields.any (fun f => !f.dependsOn.isEmpty) = true :=
      List.any_eq_true.mpr ⟨f0, hf0, by
        simp only [Bool.not_eq_true']
        simpa [List.isEmpty_iff] using List.ne_nil_of_mem hf0d⟩
    have hkeys1 : graphKeys (discardSelf (dependencyGraph fields)) =
        fields.map FieldDesc.name := by
      unfold graphKeys discardSelf dependencyGraph
      rw [List.map_map, List.map_map]
      rfl
    have hnd2 : (graphKeys (discardSelf (dependencyGraph fields) ++
        (extraItems (discardSelf (dependencyGraph fields))).map
          (fun d => (d, ([] : List String))))).Nodup := by
      unfold graphKeys
      rw [List.map_append, List.map_map]
      have hx : List.map (Prod.fst ∘ fun d => (d, ([] : List String)))
          (extraItems (discardSelf (dependencyGraph fields))) =
          extraItems (discardSelf (dependencyGraph fields)) := List.map_id _
      rw [hx]
      show ((graphKeys (discardSelf (dependencyGraph fields))) ++ _).Nodup
      rw [hkeys1]
      refine List.Nodup.append hnames (List.Nodup.filter _ (List.nodup_dedup _)) ?_
      intro d hd1 hd2
      have hflt := List.of_mem_filter hd2
      have hct : (graphKeys (discardSelf (dependencyGraph fields))).contains d = true := by
        rw [hkeys1]
        exact List.elem_eq_true_of_mem hd1
      rw [hct] at hflt
      simp at hflt
    have hinv : ∀ x ∈ a :: rest, ∃ ds,
        (x, ds) ∈ (discardSelf (dependencyGraph fields) ++
          (extraItems (discardSelf (dependencyGraph fields))).map
            (fun d => (d, ([] : List String)))) ∧ ∃ y ∈ a :: rest, y ∈ ds := by
      intro x hx
      obtain ⟨y, hy, hxy, hxyne⟩ := hclosed x hx
      obtain ⟨f, hf, hfn, hyd⟩ := dependsDirectlyB_iff.mp hxy
      subst hfn
      refine ⟨f.dependsOn.filter (fun d => d != f.name),
        List.mem_append_left _ ?_, y, hy, ?_⟩
      · unfold discardSelf dependencyGraph
        rw [List.map_map]
        exact List.mem_map.mpr ⟨f, hf, rfl⟩
      · refine List.mem_filter.mpr ⟨hyd, ?_⟩
        simp only [bne_iff_ne, ne_eq, decide_not]
        simpa using fun h => hxyne (by rw [h])
    unfold finalizeClass
    cases hcc : checkCalculatable name fields freg with
    | error e => rfl
    | ok u =>
      have hflat : isOk (toposortFlatten (dependencyGraph fields)) = false := by
        unfold toposortFlatten
        have hgne : (dependencyGraph fields).isEmpty = false := by
          unfold dependencyGraph
          cases hfs : fields with
          | nil => rw [hfs] at hf0; cases hf0
          | cons q qs => rfl
        rw [hgne]
        simp only [Bool.false_eq_true, if_false]
        exact kahnFuel_no_ok (a :: rest) (by simp) _ _ hnd2 hinv
      unfold determineFieldHandlingOrder
      rw [hany]
      simp only [Bool.not_true, Bool.false_eq_true, if_false]
      cases hts : toposortFlatten (dependencyGraph fields) with
      | ok order => rw [hts] at hflat; simp [isOk] at hflat
      | error e => rfl

/-- Witness for `claim6_definition_time_errors`: a calculated field without
a handler fails naming the field, and a two-field cycle `a → b → a` (with
handlers registered) fails finalization. -/
theorem claim6_definition_time_errors_witness :
    finalizeClass "PDC" [⟨"n", .plain .rint, none, none, false, false, ["m"]⟩]
      [] [] false = .error (.missingFieldHandler "PDC" "n") ∧
    isOk (finalizeClass "PDC2"
      [⟨"a", .plain .rint, none, none, false, false, ["b"]⟩,
       ⟨"b", .plain .rint, none, none, false, false, ["a"]⟩]
      [("a", fun _ v => v), ("b", fun _ v => v)] [] false) = false := by
  constructor
  · obtain ⟨g, hg, _, _, hfin⟩ :=
      (claim6_definition_time_errors "PDC"
        [⟨"n", .plain .rint, none, none, false, false, ["m"]⟩] [] [] false
        (by decide)).1
        ⟨⟨"n", .plain .rint, none, none, false, false, ["m"]⟩, by simp, by simp, rfl⟩
    have hgn : g = ⟨"n", .plain .rint, none, none, false, false, ["m"]⟩ :=
      List.mem_singleton.mp hg
    rw [hgn] at hfin
    exact hfin
  · exact (claim6_definition_time_errors "PDC2"
      [⟨"a", .plain .rint, none, none, false, false, ["b"]⟩,
       ⟨"b", .plain .rint, none, none, false, false, ["a"]⟩]
      [("a", fun _ v => v), ("b", fun _ v => v)] [] false (by decide)).2
      "a" ["b"]
      (List.Chain.cons ⟨by decide, by decide⟩
        (List.Chain.cons ⟨by decide, by decide⟩ List.Chain.nil))

/-- `occursBefore` requires its second item to occur. -/
theorem occursBefore_mem_right {a b : String} :
    ∀ {l : List String}, occursBefore a b l = true → b ∈ l := by
  intro l
  induction l with
  | nil => intro h; cases h
  | cons x xs ih =>
    intro h
    rw [occursBefore] at h
    by_cases hx : x = a
    · rw [if_pos hx] at h
      exact List.mem_cons_of_mem _ (List.mem_of_elem_eq_true h)
    · rw [if_neg hx] at h
      exact List.mem_cons_of_mem _ (ih h)

/-- Anything in the left part occurs before anything in the right part. -/
theorem occursBefore_append_left {a b : String} :
    ∀ {l1 l2 : List String}, a ∈ l1 → b ∈ l2 → occursBefore a b (l1 ++ l2) = true := by
  intro l1
  induction l1 with
  | nil => intro l2 h1 _; cases h1
  | cons x xs ih =>
    intro l2 h1 h2
    rw [List.cons_append, occursBefore]
    by_cases hx : x = a
    · rw [if_pos hx]
      exact List.elem_eq_true_of_mem (List.mem_append_right _ h2)
    · rw [if_neg hx]
      rcases List.mem_cons.mp h1 with rfl | hm
      · exact absurd rfl hx
      · exact ih hm h2

/-- `occursBefore` within the right part lifts over a left part avoiding
the first item. -/
theorem occursBefore_append_right {a b : String} :
    ∀ {l1 l2 : List String}, a ∉ l1 → occursBefore a b l2 = true →
      occursBefore a b (l1 ++ l2) = true := by
  intro l1
  induction l1 with
  | nil => intro l2 _ h2; exact h2
  | cons x xs ih =>
    intro l2 h1 h2
    rw [List.cons_append, occursBefore]
    rw [if_neg (fun hx => h1 (by rw [← hx]; exact List.mem_cons_self x xs))]
    exact ih (fun hm => h1 (List.mem_cons_of_mem _ hm)) h2

/-- No item occurs strictly before itself in a duplicate-free list. -/
theorem occursBefore_irrefl {a : String} :
    ∀ {l : List String}, l.Nodup → occursBefore a a l = false := by
  intro l
  induction l with
  | nil => intro _; rfl
  | cons x xs ih =>
    intro hnd
    rcases List.nodup_cons.mp hnd with ⟨hx, hnd2⟩
    rw [occursBefore]
    by_cases hxa : x = a
    · rw [if_pos hxa]
      subst hxa
      exact contains_eq_false_of_not_mem hx
    · rw [if_neg hxa]
      exact ih hnd2

/-- Nothing satisfying the predicate occurs strictly before the first
`find?` hit in a duplicate-free list. -/
theorem find?_first_not_before {p : String → Bool} {k d : String} :
    ∀ {L : List String}, L.Nodup → L.find? p = some k → p d = true →
      occursBefore d k L = false := by
  intro L
  induction L with
  | nil => intro _ hf _; cases hf
  | cons x xs ih =>
    intro hnd hf hd
    rcases List.nodup_cons.mp hnd with ⟨hx, hnd2⟩
    rw [occursBefore]
    cases hpx : p x
    · rw [List.find?_cons_of_neg _ (by rw [hpx]; exact Bool.false_ne_true)] at hf
      have hxd : x ≠ d := fun he => by rw [he, hd] at hpx; cases hpx
      rw [if_neg hxd]
      exact ih hnd2 hf hd
    · rw [List.find?_cons_of_pos _ hpx] at hf
      have hkx : k = x := (Option.some.inj hf).symm
      subst hkx
      by_cases hxd : k = d
      · rw [if_pos hxd]
        exact contains_eq_false_of_not_mem hx
      · rw [if_neg hxd]
        cases hob : occursBefore d k xs
        · rfl
        · exact absurd (occursBefore_mem_right hob) hx

/-- Insertion keeps the same elements. -/
theorem insertSorted_perm (a : String) :
    ∀ (l : List String), List.Perm (insertSorted a l) (a :: l) := by
  intro l
  induction l with
  | nil => exact List.Perm.refl _
  | cons b bs ih =>
    rw [insertSorted]
    by_cases hle : strLe a b
    · rw [if_pos hle]
    · rw [if_neg hle]
      exact (ih.cons b).trans (List.Perm.swap a b bs)

/-- Sorting keeps the same elements. -/
theorem sortStrings_perm : ∀ (l : List String), List.Perm (sortStrings l) l := by
  intro l
  induction l with
  | nil => exact List.Perm.refl _
  | cons b bs ih =>
    show List.Perm (insertSorted b (sortStrings bs)) _
    exact (insertSorted_perm b (sortStrings bs)).trans (ih.cons b)

/-- Membership transfers through sorting. -/
theorem mem_sortStrings {a : String} {l : List String} :
    a ∈ sortStrings l ↔ a ∈ l :=
  (sortStrings_perm l).mem_iff

/-- The keys of the post-round graph are the non-ready keys. -/
theorem kahnRest_keys_eq (g : List (String × List String)) (ready : List String) :
    graphKeys (kahnRest g ready) =
      (g.filter (fun p => !ready.contains p.1)).map Prod.fst := by
  unfold graphKeys kahnRest
  rw [List.map_map]
  rfl

/-- With duplicate-free keys, an item is ready exactly when its dependency
entry is empty. -/
theorem mem_ready_iff {g : List (String × List String)} (hnd : (graphKeys g).Nodup)
    {q : String × List String} (hq : q ∈ g) : q.1 ∈ readyKeys g ↔ q.2 = [] := by
  constructor
  · intro hr
    by_cases he : q.2 = []
    · exact he
    · exact absurd hr (not_ready_of_deps hnd (by simpa using hq) he)
  · intro he
    unfold readyKeys
    exact List.mem_map.mpr ⟨q, List.mem_filter.mpr ⟨hq, by simp [he]⟩, rfl⟩

/-- A successful toposort loop emits a permutation of the keys. -/
theorem kahnFuel_perm :
    ∀ (fuel : Nat) (g : List (String × List String)), (graphKeys g).Nodup →
    ∀ {ord : List String}, kahnFuel fuel g = .ok ord →
    List.Perm ord (graphKeys g) := by
  intro fuel
  induction fuel with
  | zero =>
    intro g hnd ord hok
    cases g with
    | nil =>
      cases hok
      exact List.Perm.refl _
    | cons p ps => cases hok
  | succ fuel ih =>
    intro g hnd ord hok
    cases g with
    | nil =>
      cases hok
      exact List.Perm.refl _
    | cons p ps =>
      rw [kahnFuel] at hok
      cases hre : (readyKeys (p :: ps)).isEmpty
      case true =>
        rw [hre] at hok
        simp at hok
      rw [hre] at hok
      simp only [Bool.false_eq_true, if_false] at hok
      cases hrec : kahnFuel fuel (kahnRest (p :: ps) (readyKeys (p :: ps))) with
      | error e => rw [hrec] at hok; cases hok
      | ok tail =>
        rw [hrec] at hok
        simp only [Except.ok.injEq] at hok
        have htail := ih _ (hnd.sublist (kahnRest_keys_sublist _ _)) hrec
        subst hok
        have hfc : (p :: ps).filter (fun q => !(readyKeys (p :: ps)).contains q.1) =
            (p :: ps).filter (fun q => !q.2.isEmpty) := by
          apply List.filter_congr
          intro q hq
          have hiff := mem_ready_iff hnd hq
          cases hc : (readyKeys (p :: ps)).contains q.1
          · have hnm : q.1 ∉ readyKeys (p :: ps) := fun hm => by
              have hct : (readyKeys (p :: ps)).contains q.1 = true :=
                List.elem_eq_true_of_mem hm
              rw [hct] at hc
              cases hc
            have hne : q.2 ≠ [] := fun he => hnm (hiff.mpr he)
            have hqe : q.2.isEmpty = false := by
              cases hqe2 : q.2.isEmpty
              · rfl
              · exact absurd (List.isEmpty_iff.mp hqe2) hne
            rw [hqe]
          · have hm := List.mem_of_elem_eq_true hc
            have he := hiff.mp hm
            have hqe : q.2.isEmpty = true := by simp [he]
            rw [hqe]
        refine ((sortStrings_perm _).append htail).trans ?_
        rw [kahnRest_keys_eq, hfc]
        have hperm := (List.filter_append_perm
          (fun q : String × List String => q.2.isEmpty) (p :: ps)).map Prod.fst
        rw [List.map_append] at hperm
        exact hperm
      simp

/-- Dependencies staying inside the keys is preserved by a round. -/
theorem depsSubKeys_kahnRest {g : List (String × List String)} {ready : List String}
    (hds : depsSubKeys g) : depsSubKeys (kahnRest g ready) := by
  intro p' hp' d hd
  unfold kahnRest at hp'
  obtain ⟨q, hqf, rfl⟩ := List.mem_map.mp hp'
  have hqg := List.mem_of_mem_filter hqf
  have hd2 := List.mem_of_mem_filter hd
  have hdc := List.of_mem_filter hd
  have hdk := hds q hqg d hd2
  obtain ⟨r, hrg, hrd⟩ := List.mem_map.mp hdk
  rw [kahnRest_keys_eq]
  refine List.mem_map.mpr ⟨r, List.mem_filter.mpr ⟨hrg, ?_⟩, hrd⟩
  rw [hrd]
  exact hdc

/-- In a successful toposort run on a graph with duplicate-free keys whose
dependencies all point at keys, every dependency occurs strictly before
its depending item in the emitted order. -/
theorem kahnFuel_before :
    ∀ (fuel : Nat) (g : List (String × List String)), (graphKeys g).Nodup →
    depsSubKeys g →
    ∀ {ord : List String}, kahnFuel fuel g = .ok ord →
    ∀ p ∈ g, ∀ d ∈ p.2, occursBefore d p.1 ord = true := by
  intro fuel
  induction fuel with
  | zero =>
    intro g hnd hds ord hok p hp d hd
    cases g with
    | nil => cases hp
    | cons q qs => cases hok
  | succ fuel ih =>
    intro g hnd hds ord hok p hp d hd
    cases g with
    | nil => cases hp
    | cons q qs =>
      rw [kahnFuel] at hok
      cases hre : (readyKeys (q :: qs)).isEmpty
      case true => rw [hre] at hok; simp at hok
      rw [hre] at hok
      simp only [Bool.false_eq_true, if_false] at hok
      cases hrec : kahnFuel fuel (kahnRest (q :: qs) (readyKeys (q :: qs))) with
      | error e => rw [hrec] at hok; cases hok
      | ok tail =>
        rw [hrec] at hok
        simp only [Except.ok.injEq] at hok
        subst hok
        have hpn : p.1 ∉ readyKeys (q :: qs) :=
          not_ready_of_deps hnd (by simpa using hp) (List.ne_nil_of_mem hd)
        have hpc : (readyKeys (q :: qs)).contains p.1 = false :=
          contains_eq_false_of_not_mem hpn
        have hpt : p.1 ∈ tail := by
          have hperm := kahnFuel_perm fuel _
            (hnd.sublist (kahnRest_keys_sublist _ _)) hrec
          have hpk : p.1 ∈ graphKeys (kahnRest (q :: qs) (readyKeys (q :: qs))) := by
            rw [kahnRest_keys_eq]
            exact List.mem_map.mpr ⟨p, List.mem_filter.mpr ⟨hp, by rw [hpc]; rfl⟩, rfl⟩
          exact hperm.mem_iff.mpr hpk
        by_cases hdr : d ∈ readyKeys (q :: qs)
        · exact occursBefore_append_left (mem_sortStrings.mpr hdr) hpt
        · have hdc : (readyKeys (q :: qs)).contains d = false :=
            contains_eq_false_of_not_mem hdr
          have hrent : (p.1, p.2.filter (fun d => !(readyKeys (q :: qs)).contains d)) ∈
              kahnRest (q :: qs) (readyKeys (q :: qs)) :=
            kahnRest_entry (by simpa using hp) hpc
          have hdf : d ∈ p.2.filter (fun d => !(readyKeys (q :: qs)).contains d) :=
            List.mem_filter.mpr ⟨hd, by rw [hdc]; rfl⟩
          have hbt := ih _ (hnd.sublist (kahnRest_keys_sublist _ _))
            (depsSubKeys_kahnRest hds) hrec _ hrent d hdf
          refine occursBefore_append_right ?_ hbt
          intro hds2
          exact hdr (mem_sortStrings.mp hds2)
      simp

/-- If a valid topological order exists for the graph, the toposort loop
succeeds (given at least as much fuel as there are items — each round
removes at least one). -/
theorem kahnFuel_complete {L : List String} :
    ∀ (fuel : Nat) (g : List (String × List String)), g.length ≤ fuel →
    (graphKeys g).Nodup → depsSubKeys g →
    L.Nodup → (∀ k ∈ graphKeys g, k ∈ L) →
    (∀ p ∈ g, ∀ d ∈ p.2, occursBefore d p.1 L = true) →
    isOk (kahnFuel fuel g) = true := by
  intro fuel
  induction fuel with
  | zero =>
    intro g hlen hnd hds hLnd hsub hbef
    cases g with
    | nil => rfl
    | cons q qs =>
      simp only [List.length_cons] at hlen
      omega
  | succ fuel ih =>
    intro g hlen hnd hds hLnd hsub hbef
    cases g with
    | nil => rfl
    | cons q qs =>
      have hfind : (L.find? (fun s => (graphKeys (q :: qs)).contains s)).isSome := by
        apply List.find?_isSome.mpr
        refine ⟨q.1, hsub q.1 (by simp [graphKeys]), ?_⟩
        exact List.elem_eq_true_of_mem (by simp [graphKeys])
      obtain ⟨k0, hk0⟩ := Option.isSome_iff_exists.mp hfind
      have hk0p := List.find?_some hk0
      have hk0m : k0 ∈ graphKeys (q :: qs) := List.mem_of_elem_eq_true hk0p
      obtain ⟨r, hrg, hrk⟩ := List.mem_map.mp hk0m
      have hrds : r.2 = [] := by
        rw [List.eq_nil_iff_forall_not_mem]
        intro d hd
        have hob := hbef r hrg d hd
        have hdk : d ∈ graphKeys (q :: qs) := hds r hrg d hd
        have hdp : (fun s => (graphKeys (q :: qs)).contains s) d = true :=
          List.elem_eq_true_of_mem hdk
        have hcontra := find?_first_not_before hLnd hk0 hdp
        rw [hrk] at hob
        rw [hob] at hcontra
        cases hcontra
      have hr_ready : r.1 ∈ readyKeys (q :: qs) := (mem_ready_iff hnd hrg).mpr hrds
      have hre : (readyKeys (q :: qs)).isEmpty = false := by
        cases hre2 : (readyKeys (q :: qs)).isEmpty
        · rfl
        · rw [List.isEmpty_iff] at hre2
          rw [hre2] at hr_ready
          exact absurd hr_ready (List.not_mem_nil _)
      rw [kahnFuel]
      rw [hre]
      simp only [Bool.false_eq_true, if_false]
      have hlt : (kahnRest (q :: qs) (readyKeys (q :: qs))).length < (q :: qs).length := by
        unfold kahnRest
        rw [List.length_map]
        apply List.length_filter_lt_length_iff_exists.mpr
        refine ⟨r, hrg, ?_⟩
        have hc : (readyKeys (q :: qs)).contains r.1 = true :=
          List.elem_eq_true_of_mem hr_ready
        rw [hc]
        simp
      have hrec := ih (kahnRest (q :: qs) (readyKeys (q :: qs)))
        (by simp only [List.length_cons] at hlen hlt; omega)
        (hnd.sublist (kahnRest_keys_sublist _ _))
        (depsSubKeys_kahnRest hds)
        hLnd
        (fun k hk => hsub k ((kahnRest_keys_sublist _ _).subset hk))
        (fun p hp d hd => by
          unfold kahnRest at hp
          obtain ⟨s, hsf, rfl⟩ := List.mem_map.mp hp
          have hsg := List.mem_of_mem_filter hsf
          exact hbef s hsg d (List.mem_of_mem_filter hd))
      cases hkr : kahnFuel fuel (kahnRest (q :: qs) (readyKeys (q :: qs))) with
      | error e => rw [hkr] at hrec; simp [isOk] at hrec
      | ok tail => rfl
      simp

/-- The dependency graph's keys are the field names in declaration order. -/
theorem dependencyGraph_keys (fields : List FieldDesc) :
    graphKeys (dependencyGraph fields) = fields.map FieldDesc.name := by
  unfold graphKeys dependencyGraph
  rw [List.map_map]
  rfl

/-- Discarding self-dependencies is the identity on a self-loop-free
graph. -/
theorem discardSelf_id {g : List (String × List String)}
    (h : ∀ p ∈ g, ∀ d ∈ p.2, d ≠ p.1) : discardSelf g = g := by
  induction g with
  | nil => rfl
  | cons p ps ih =>
    unfold discardSelf at ih ⊢
    simp only [List.map_cons]
    rw [ih (fun q hq => h q (List.mem_cons_of_mem _ hq))]
    have hp : p.2.filter (fun d => d != p.1) = p.2 :=
      List.filter_eq_self.mpr (fun d hd => by
        simp only [bne_iff_ne, ne_eq, decide_not]
        simpa using h p (List.mem_cons_self _ _) d hd)
    rw [hp]

/-- A graph whose dependencies are all keys has no dependency-only items. -/
theorem extraItems_nil_of_depsSub {g : List (String × List String)}
    (hds : depsSubKeys g) : extraItems g = [] := by
  unfold extraItems
  apply List.filter_eq_nil_iff.mpr
  intro d hd
  have hdm : d ∈ (g.map Prod.snd).flatten := List.mem_dedup.mp hd
  obtain ⟨l, hl, hdl⟩ := List.mem_flatten.mp hdm
  obtain ⟨p, hp, rfl⟩ := List.mem_map.mp hl
  have hk := hds p hp d hdl
  have hc : (graphKeys g).contains d = true := List.elem_eq_true_of_mem hk
  rw [hc]
  simp

/-- Looking the names of a computed order back up succeeds and yields
fields with exactly those names. -/
theorem lookupFields_ok {fields : List FieldDesc} :
    ∀ (ns : List String), (∀ n ∈ ns, n ∈ fields.map FieldDesc.name) →
    ∃ ord, lookupFields fields ns = .ok ord ∧ ord.map FieldDesc.name = ns ∧
      ∀ f ∈ ord, f ∈ fields := by
  intro ns
  induction ns with
  | nil => exact fun _ => ⟨[], rfl, rfl, fun f hf => absurd hf (List.not_mem_nil f)⟩
  | cons n ns2 ih =>
    intro hsub
    have hn := hsub n (List.mem_cons_self _ _)
    obtain ⟨f, hf, hfn⟩ := List.mem_map.mp hn
    have hfind : (fields.find? (fun f => f.name == n)).isSome :=
      List.find?_isSome.mpr ⟨f, hf, by simp [hfn]⟩
    obtain ⟨f0, hf0⟩ := Option.isSome_iff_exists.mp hfind
    have hf0n : f0.name = n := by simpa using List.find?_some hf0
    have hf0m := List.mem_of_find?_eq_some hf0
    obtain ⟨ord2, hord2, hmap2, hmem2⟩ := ih (fun m hm => hsub m (List.mem_cons_of_mem _ hm))
    refine ⟨f0 :: ord2, ?_, ?_, ?_⟩
    · rw [lookupFields, hf0, hord2]
    · simp [hmap2, hf0n]
    · intro f1 hf1
      rcases List.mem_cons.mp hf1 with rfl | hm
      · exact hf0m
      · exact hmem2 f1 hm

/-- In a schema with duplicate-free field names, a field is determined by
its name. -/
theorem name_inj {fields : List FieldDesc} (hnd : (fields.map FieldDesc.name).Nodup) :
    ∀ {a b : FieldDesc}, a ∈ fields → b ∈ fields → a.name = b.name → a = b := by
  induction fields with
  | nil => intro a b ha _ _; cases ha
  | cons f fs ih =>
    intro a b ha hb hab
    rw [List.map_cons, List.nodup_cons] at hnd
    rcases hnd with ⟨hfn, hnd2⟩
    rcases List.mem_cons.mp ha with rfl | ha2 <;> rcases List.mem_cons.mp hb with rfl | hb2
    · rfl
    · exact absurd (show a.name ∈ fs.map FieldDesc.name by
        rw [hab]; exact List.mem_map_of_mem FieldDesc.name hb2) hfn
    · exact absurd (show b.name ∈ fs.map FieldDesc.name by
        rw [← hab]; exact List.mem_map_of_mem FieldDesc.name ha2) hfn
    · exact ih hnd2 ha2 hb2 hab

/-- C7: for a schema with duplicate-free field names whose declared
dependencies all name fields, and whose dependency graph admits a valid
topological order (i.e. is acyclic and self-loop-free), the finalized
field-handling order exists, contains every field exactly once (it is a
permutation of the declared fields), places every field strictly after
each of its named dependencies, and is the order `finalizeClass` stores in
the class — the same fixed list every instance's pipeline then walks. -/
theorem claim7_topological_order
    (fields : List FieldDesc) (L : List String)
    (hnames : (fields.map FieldDesc.name).Nodup)
    (hdeps : ∀ f ∈ fields, ∀ d ∈ f.dependsOn, d ∈ fields.map FieldDesc.name)
    (hL : validTopoOrder (dependencyGraph fields) L) :
    ∃ ord, determineFieldHandlingOrder fields = .ok ord ∧
      List.Perm ord fields ∧
      (∀ f ∈ fields, ∀ d ∈ f.dependsOn,
        occursBefore d f.name (ord.map FieldDesc.name) = true) ∧
      (∀ nm freg treg ign cls, finalizeClass nm fields freg treg ign = .ok cls →
        cls.handlingOrder = ord) := by
  obtain ⟨hLnd, hLsub, hLbef⟩ := hL
  cases hany : fields.any (fun f => !f.dependsOn.isEmpty)
  case false =>
    have hord : determineFieldHandlingOrder fields = .ok fields := by
      unfold determineFieldHandlingOrder
      rw [hany]
      rfl
    refine ⟨fields, hord, List.Perm.refl _, ?_, ?_⟩
    · intro f hf d hd
      have h2 := List.any_eq_false.mp hany f hf
      have hde : f.dependsOn = [] := by
        cases hie : f.dependsOn.isEmpty
        · exact absurd (by rw [hie]; rfl) h2
        · exact List.isEmpty_iff.mp hie
      rw [hde] at hd
      cases hd
    · intro nm freg treg ign cls hfin
      unfold finalizeClass at hfin
      cases hcc : checkCalculatable nm fields freg with
      | error e => rw [hcc] at hfin; cases hfin
      | ok u =>
        rw [hcc, hord] at hfin
        simp only [Except.ok.injEq] at hfin
        rw [← hfin]
  case true =>
    have hds : depsSubKeys (dependencyGraph fields) := by
      intro p hp d hd
      obtain ⟨f, hf, rfl⟩ := List.mem_map.mp hp
      rw [dependencyGraph_keys]
      exact hdeps f hf d hd
    have hnd0 : (graphKeys (dependencyGraph fields)).Nodup := by
      rw [dependencyGraph_keys]
      exact hnames
    have hnoself : ∀ p ∈ dependencyGraph fields, ∀ d ∈ p.2, d ≠ p.1 := by
      intro p hp d hd he
      have hob := hLbef p hp d hd
      rw [he, occursBefore_irrefl hLnd] at hob
      cases hob
    have hdisc : discardSelf (dependencyGraph fields) = dependencyGraph fields :=
      discardSelf_id hnoself
    have hextra : extraItems (dependencyGraph fields) = [] :=
      extraItems_nil_of_depsSub hds
    obtain ⟨f0, hf0, _⟩ := List.any_eq_true.mp hany
    have hgne : (dependencyGraph fields).isEmpty = false := by
      unfold dependencyGraph
      cases hfs : fields with
      | nil => rw [hfs] at hf0; cases hf0
      | cons _ _ => rfl
    have hflat : toposortFlatten (dependencyGraph fields) =
        kahn (dependencyGraph fields) := by
      unfold toposortFlatten
      rw [hgne]
      simp only [Bool.false_eq_true, if_false]
      rw [hdisc, hextra]
      simp
    have hcompl := kahnFuel_complete (dependencyGraph fields).length
      (dependencyGraph fields) (le_refl _) hnd0 hds hLnd hLsub hLbef
    cases hkr : kahnFuel (dependencyGraph fields).length (dependencyGraph fields) with
    | error e => rw [hkr] at hcompl; simp [isOk] at hcompl
    | ok ns =>
      have hperm := kahnFuel_perm _ _ hnd0 hkr
      have hbef := kahnFuel_before _ _ hnd0 hds hkr
      have hnssub : ∀ n ∈ ns, n ∈ fields.map FieldDesc.name := by
        intro n hn
        rw [← dependencyGraph_keys fields]
        exact hperm.mem_iff.mp hn
      obtain ⟨ord, hlk, hmap, hmem⟩ := lookupFields_ok ns hnssub
      have hdet : determineFieldHandlingOrder fields = .ok ord := by
        unfold determineFieldHandlingOrder
        rw [hany]
        simp only [Bool.not_true, Bool.false_eq_true, if_false]
        rw [hflat]
        unfold kahn
        rw [hkr]
        exact hlk
      have hordnd : ord.Nodup := by
        have hnsnd : ns.Nodup := (hperm.nodup_iff).mpr
          (by rw [dependencyGraph_keys]; exact hnames)
        rw [← hmap] at hnsnd
        exact hnsnd.of_map _
      have hfieldsnd : fields.Nodup := hnames.of_map _
      have hpermf : List.Perm ord fields := by
        rw [List.perm_ext_iff_of_nodup hordnd hfieldsnd]
        intro f
        constructor
        · exact fun hf => hmem f hf
        · intro hf
          have h1 : f.name ∈ fields.map FieldDesc.name :=
            List.mem_map_of_mem FieldDesc.name hf
          have h2 : f.name ∈ ns := by
            rw [← dependencyGraph_keys fields] at h1
            exact hperm.mem_iff.mpr h1
          rw [← hmap] at h2
          obtain ⟨f2, hf2, hf2n⟩ := List.mem_map.mp h2
          have hff : f2 = f := name_inj hnames (hmem f2 hf2) hf hf2n
          rw [← hff]
          exact hf2
      refine ⟨ord, hdet, hpermf, ?_, ?_⟩
      · intro f hf d hd
        have hentry : (f.name, f.dependsOn) ∈ dependencyGraph fields :=
          List.mem_map.mpr ⟨f, hf, rfl⟩
        have hob := hbef _ hentry d hd
        rw [hmap]
        exact hob
      · intro nm freg treg ign cls hfin
        unfold finalizeClass at hfin
        cases hcc : checkCalculatable nm fields freg with
        | error e => rw [hcc] at hfin; cases hfin
        | ok u =>
          rw [hcc, hdet] at hfin
          simp only [Except.ok.injEq] at hfin
          rw [← hfin]

/-- Witness for `claim7_topological_order`: a two-field schema where `c`
depends on `d`, with the valid order `["d", "c"]` witnessing acyclicity. -/
theorem claim7_topological_order_witness :
    ∃ ord, determineFieldHandlingOrder
        [⟨"c", .plain .rint, none, none, false, false, ["d"]⟩,
         plainField "d" (.plain .rint)] = .ok ord ∧
      List.Perm ord
        [⟨"c", .plain .rint, none, none, false, false, ["d"]⟩,
         plainField "d" (.plain .rint)] ∧
      (∀ f ∈ [⟨"c", .plain .rint, none, none, false, false, ["d"]⟩,
         plainField "d" (.plain .rint)], ∀ d ∈ f.dependsOn,
        occursBefore d f.name (ord.map FieldDesc.name) = true) ∧
      (∀ nm freg treg ign cls, finalizeClass nm
          [⟨"c", .plain .rint, none, none, false, false, ["d"]⟩,
           plainField "d" (.plain .rint)] freg treg ign = .ok cls →
        cls.handlingOrder = ord) :=
  claim7_topological_order
    [⟨"c", .plain .rint, none, none, false, false, ["d"]⟩,
     plainField "d" (.plain .rint)]
    ["d", "c"] (by decide) (by decide) ⟨by decide, by decide, by decide⟩

theorem powercast_int_ok {fuel : Nat} {env : Env} {v w : PValue}
    (h : powercast fuel env v (.plain .rint) [] = .ok w) : ∃ n, w = .vint n := by
  cases fuel with
  | zero => cases h
  | succ fuel =>
    rw [powercast] at h
    cases v <;> simp [runtimeClass, dlookup, constructPlain, intConstruct] at h
    · exact ⟨_, h.symm⟩
    · rcases hp : parsePyInt _ with _ | n <;> rw [hp] at h <;> simp at h
      exact ⟨n, h.symm⟩
    · exact ⟨_, h.symm⟩
    all_goals simp

theorem powercast_str_ok {fuel : Nat} {env : Env} {v w : PValue}
    (h : powercast fuel env v (.plain .rstr) [] = .ok w) : ∃ s, w = .vstr s := by
  cases fuel with
  | zero => cases h
  | succ fuel =>
    rw [powercast] at h
    cases v <;> simp [runtimeClass, dlookup, constructPlain] at h <;>
      exact ⟨_, h.symm⟩
    all_goals simp

theorem bindFieldArgs_keys :
    ∀ (fs : List FieldDesc) (pos : List PValue) (kw : List (String × PValue))
      {i0 : List (String × PValue)},
    bindFieldArgs fs pos kw = .ok i0 → i0.map Prod.fst = fs.map FieldDesc.name := by
  intro fs
  induction fs with
  | nil =>
    intro pos kw i0 h
    cases pos <;> (simp only [bindFieldArgs, Except.ok.injEq] at h; rw [← h]; rfl)
  | cons f fs ih =>
    intro pos kw i0 h
    cases pos with
    | cons p ps =>
      rw [bindFieldArgs] at h
      cases hhas : dhas kw f.name
      case true => rw [hhas] at h; simp at h
      rw [hhas] at h
      simp only [Bool.false_eq_true, if_false] at h
      cases hrec : bindFieldArgs fs ps kw with
      | error e => rw [hrec] at h; cases h
      | ok rest =>
        rw [hrec] at h
        simp only [Except.ok.injEq] at h
        rw [← h]
        simp [ih ps kw hrec]
    | nil =>
      rw [bindFieldArgs] at h
      cases hlk : dlookup kw f.name with
      | some v =>
        rw [hlk] at h
        cases hrec : bindFieldArgs fs [] kw with
        | error e => rw [hrec] at h; cases h
        | ok rest =>
          rw [hrec] at h
          simp only [Except.ok.injEq] at h
          rw [← h]
          simp [ih [] kw hrec]
      | none =>
        rw [hlk] at h
        cases hdf : f.default.or f.defaultFactory with
        | none => rw [hdf] at h; cases h
        | some d =>
          rw [hdf] at h
          cases hrec : bindFieldArgs fs [] kw with
          | error e => rw [hrec] at h; cases h
          | ok rest =>
            rw [hrec] at h
            simp only [Except.ok.injEq] at h
            rw [← h]
            simp [ih [] kw hrec]

theorem handleField_nohandlers_ok {pc : PValue → PType → List (PType × (PValue → PValue)) → Except PErr PValue}
    {cls : PDCClass} {inst out : List (String × PValue)} {f : FieldDesc}
    (hfh : cls.fieldHandlers = []) (hth : cls.typeHandlers = [])
    (hskip : f.skipTypecasting = false) (hnul : f.nullable = false)
    (hdef : f.default = none)
    (h : handleFieldWith pc cls inst f = .ok out) :
    ∃ v w, dlookup inst f.name = some v ∧ pc v f.ftype [] = .ok w ∧
      out = dinsert inst f.name w := by
  unfold handleFieldWith at h
  cases hv : dlookup inst f.name with
  | none => rw [hv] at h; cases h
  | some v =>
    rw [hv] at h
    simp only [hskip, Bool.false_eq_true, if_false, hfh, hth] at h
    rw [show dlookup ([] : List (String × Handler)) f.name = none from rfl] at h
    rw [show dlookup ([] : List (PType × Handler)) f.ftype = none from rfl] at h
    rw [genericFieldStep] at h
    have hbc : boundTypeCasters cls inst = [] := by simp [boundTypeCasters, hth]
    cases hnv : isNoneV v
    · rw [hnv] at h
      simp only [Bool.false_eq_true, if_false] at h
      rw [hbc] at h
      cases hcast : pc v f.ftype [] with
      | error e => rw [hcast] at h; cases h
      | ok w =>
        rw [hcast] at h
        simp only [Except.ok.injEq] at h
        exact ⟨v, w, rfl, hcast, h.symm⟩
    · rw [hnv] at h
      simp only [if_true, hnul, hdef] at h
      simp at h

theorem powercast_id {fuel : Nat} {env : Env} {v : PValue}
    {cs : List (PType × (PValue → PValue))} :
    powercast (fuel + 1) env v (.plain (runtimeClass v)) cs = .ok v := by
  cases v <;> simp only [runtimeClass] <;> rw [powercast] <;> simp [runtimeClass]

theorem pairs_of_keys2 {i0 : List (String × PValue)} {k1 k2 : String}
    (h : i0.map Prod.fst = [k1, k2]) : ∃ v1 v2, i0 = [(k1, v1), (k2, v2)] := by
  cases i0 with
  | nil => simp at h
  | cons p rest =>
    cases rest with
    | nil => simp at h
    | cons q rest2 =>
      cases rest2 with
      | cons r _ => simp at h
      | nil =>
        simp at h
        exact ⟨p.2, q.2, by cases p; cases q; simp_all⟩

theorem convertNested_eval {a : Int} {b : String} :
    convertToDict rtEnv false (.vdc "Nested" [("a", .vint a), ("b", .vstr b)]) =
      .ok (.vdict [(.vstr "a", .vint a), (.vstr "b", .vstr b)]) := rfl

theorem powercastNested_eval {fuel : Nat} {a : Int} {b : String} :
    powercast (fuel + 2) rtEnv (.vdict [(.vstr "a", .vint a), (.vstr "b", .vstr b)])
      (.plain (.rdc "Nested")) [] = .ok (.vdc "Nested" [("a", .vint a), ("b", .vstr b)]) := rfl

theorem buildNested_conform {fuel : Nat} {pos : List PValue} {kw : List (String × PValue)}
    {w : PValue}
    (h : buildInstanceWith (powercast fuel rtEnv) nestedCls pos kw = .ok w) :
    conformNested w := by
  unfold buildInstanceWith at h
  cases hb : bindArgs nestedCls.fields pos kw with
  | error e => rw [hb] at h; cases h
  | ok i0 =>
    rw [hb] at h
    dsimp only at h
    rw [bindArgs] at hb
    split at hb
    · cases hb
    · split at hb
      · cases hb
      · have hk2 : i0.map Prod.fst = ["a", "b"] := bindFieldArgs_keys _ _ _ hb
        obtain ⟨va, vb, hi0⟩ := pairs_of_keys2 hk2
        subst hi0
        cases hp : runPipelineWith (powercast fuel rtEnv) nestedCls nestedCls.handlingOrder
            [("a", va), ("b", vb)] with
        | error e => rw [hp] at h; cases h
        | ok i2 =>
          rw [hp] at h
          simp only [Except.ok.injEq] at h
          rw [show nestedCls.handlingOrder =
            [plainField "a" (.plain .rint), plainField "b" (.plain .rstr)] from rfl] at hp
          rw [runPipelineWith] at hp
          cases h1 : handleFieldWith (powercast fuel rtEnv) nestedCls [("a", va), ("b", vb)]
              (plainField "a" (.plain .rint)) with
          | error e => rw [h1] at hp; cases hp
          | ok j1 =>
            rw [h1] at hp
            dsimp only at hp
            obtain ⟨v1, w1, hv1, hcast1, hout1⟩ :=
              handleField_nohandlers_ok rfl rfl rfl rfl rfl h1
            have hva : va = v1 := by simpa [dlookup, plainField] using hv1
            subst hva
            obtain ⟨n, hn⟩ := powercast_int_ok hcast1
            subst hn
            have hj1 : j1 = [("a", PValue.vint n), ("b", vb)] := by
              rw [hout1]; simp [dinsert, plainField]
            subst hj1
            rw [runPipelineWith] at hp
            cases h2 : handleFieldWith (powercast fuel rtEnv) nestedCls
                [("a", PValue.vint n), ("b", vb)] (plainField "b" (.plain .rstr)) with
            | error e => rw [h2] at hp; cases hp
            | ok j2 =>
              rw [h2] at hp
              dsimp only at hp
              obtain ⟨v2, w2, hv2, hcast2, hout2⟩ :=
                handleField_nohandlers_ok rfl rfl rfl rfl rfl h2
              have hvb : vb = v2 := by simpa [dlookup, plainField] using hv2
              subst hvb
              obtain ⟨sv, hs⟩ := powercast_str_ok hcast2
              subst hs
              have hj2 : j2 = [("a", PValue.vint n), ("b", PValue.vstr sv)] := by
                rw [hout2]; simp [dinsert, plainField]
              subst hj2
              rw [runPipelineWith] at hp
              simp only [Except.ok.injEq] at hp
              rw [← h, ← hp]
              exact ⟨rfl, n, sv, rfl⟩

theorem powercastDictNested_conform {fuel : Nat} {kvs : List (PValue × PValue)} {w : PValue}
    (h : powercast fuel rtEnv (.vdict kvs) (.plain (.rdc "Nested")) [] = .ok w) :
    conformNested w := by
  cases fuel with
  | zero => cases h
  | succ fuel =>
    rw [powercast] at h
    rw [if_neg (by simp [runtimeClass])] at h
    rw [show dlookup rtEnv "Nested" = some nestedCls from rfl] at h
    dsimp only at h
    cases hkw : kwargsOf kvs with
    | error e => rw [hkw] at h; cases h
    | ok kw =>
      rw [hkw] at h
      dsimp only at h
      exact buildNested_conform h

theorem castElemsNested_conform {fuel : Nat} {ds ys : List PValue}
    (hds : ∀ d ∈ ds, ∃ ps, d = PValue.vdict ps)
    (h : castElems (powercast fuel rtEnv) (.plain (.rdc "Nested")) [] ds = .ok ys) :
    ∀ y ∈ ys, conformNested y := by
  induction ds generalizing ys with
  | nil =>
    rw [castElems] at h
    simp only [Except.ok.injEq] at h
    subst h
    intro y hy
    cases hy
  | cons d rest ih =>
    rw [castElems] at h
    cases hc : powercast fuel rtEnv d (.plain (.rdc "Nested")) [] with
    | error e => rw [hc] at h; cases h
    | ok y0 =>
      rw [hc] at h
      dsimp only at h
      cases hr : castElems (powercast fuel rtEnv) (.plain (.rdc "Nested")) [] rest with
      | error e => rw [hr] at h; cases h
      | ok ys0 =>
        rw [hr] at h
        dsimp only at h
        simp only [Except.ok.injEq] at h
        subst h
        intro y hy
        cases hy with
        | head =>
          obtain ⟨ps, hd⟩ := hds d (by simp)
          subst hd
          exact powercastDictNested_conform hc
        | tail _ hy2 =>
          exact ih (fun u hu => hds u (by simp [hu])) hr y hy2

theorem powercastListNested_ok {fuel : Nat} {ds : List PValue} {w : PValue}
    (h : powercast (fuel + 1) rtEnv (.vlist ds) (.listOf (.plain (.rdc "Nested"))) [] = .ok w) :
    ∃ ys, w = .vlist ys ∧
      castElems (powercast fuel rtEnv) (.plain (.rdc "Nested")) [] ds = .ok ys := by
  rw [powercast] at h
  have h2 : (match castElems (powercast fuel rtEnv) (.plain (.rdc "Nested")) [] ds with
      | .ok ys => (.ok (.vlist ys) : Except PErr PValue)
      | .error e => .error e) = .ok w := h
  cases hce : castElems (powercast fuel rtEnv) (.plain (.rdc "Nested")) [] ds with
  | error e => rw [hce] at h2; cases h2
  | ok ys =>
    rw [hce] at h2
    dsimp only at h2
    simp only [Except.ok.injEq] at h2
    exact ⟨ys, h2.symm, rfl⟩

theorem mkOuter_conform {fuel : Nat} {vx : PValue} {kvs : List (PValue × PValue)}
    {ds : List PValue} {w : PValue}
    (hds : ∀ d ∈ ds, ∃ ps, d = PValue.vdict ps)
    (h : mkInstance (fuel + 1) rtEnv outerCls [vx, .vdict kvs, .vlist ds] [] = .ok w) :
    conformOuter w := by
  unfold mkInstance buildInstanceWith at h
  have hb : bindArgs outerCls.fields [vx, .vdict kvs, .vlist ds] [] =
      .ok [("x", vx), ("nested", .vdict kvs), ("nl", .vlist ds)] := rfl
  rw [hb] at h
  dsimp only at h
  cases hp : runPipelineWith (powercast (fuel + 1) rtEnv) outerCls outerCls.handlingOrder
      [("x", vx), ("nested", .vdict kvs), ("nl", .vlist ds)] with
  | error e => rw [hp] at h; cases h
  | ok i2 =>
    rw [hp] at h
    dsimp only at h
    simp only [Except.ok.injEq] at h
    rw [show outerCls.handlingOrder =
      [plainField "x" (.plain .rint), plainField "nested" (.plain (.rdc "Nested")),
       plainField "nl" (.listOf (.plain (.rdc "Nested")))] from rfl] at hp
    rw [runPipelineWith] at hp
    cases h1 : handleFieldWith (powercast (fuel + 1) rtEnv) outerCls
        [("x", vx), ("nested", .vdict kvs), ("nl", .vlist ds)]
        (plainField "x" (.plain .rint)) with
    | error e => rw [h1] at hp; cases hp
    | ok j1 =>
      rw [h1] at hp
      dsimp only at hp
      obtain ⟨v1, w1, hv1, hcast1, hout1⟩ := handleField_nohandlers_ok rfl rfl rfl rfl rfl h1
      have hva : vx = v1 := by simpa [dlookup, plainField] using hv1
      subst hva
      obtain ⟨n, hn⟩ := powercast_int_ok hcast1
      subst hn
      have hj1 : j1 = [("x", PValue.vint n), ("nested", .vdict kvs), ("nl", .vlist ds)] := by
        rw [hout1]; simp [dinsert, plainField]
      subst hj1
      rw [runPipelineWith] at hp
      cases h2 : handleFieldWith (powercast (fuel + 1) rtEnv) outerCls
          [("x", PValue.vint n), ("nested", .vdict kvs), ("nl", .vlist ds)]
          (plainField "nested" (.plain (.rdc "Nested"))) with
      | error e => rw [h2] at hp; cases hp
      | ok j2 =>
        rw [h2] at hp
        dsimp only at hp
        obtain ⟨v2, w2, hv2, hcast2, hout2⟩ := handleField_nohandlers_ok rfl rfl rfl rfl rfl h2
        have hvb : PValue.vdict kvs = v2 := by simpa [dlookup, plainField] using hv2
        subst hvb
        have hconf2 : conformNested w2 := powercastDictNested_conform hcast2
        have hj2 : j2 = [("x", PValue.vint n), ("nested", w2), ("nl", .vlist ds)] := by
          rw [hout2]; simp [dinsert, plainField]
        subst hj2
        rw [runPipelineWith] at hp
        cases h3 : handleFieldWith (powercast (fuel + 1) rtEnv) outerCls
            [("x", PValue.vint n), ("nested", w2), ("nl", .vlist ds)]
            (plainField "nl" (.listOf (.plain (.rdc "Nested")))) with
        | error e => rw [h3] at hp; cases hp
        | ok j3 =>
          rw [h3] at hp
          dsimp only at hp
          obtain ⟨v3, w3, hv3, hcast3, hout3⟩ := handleField_nohandlers_ok rfl rfl rfl rfl rfl h3
          have hvc : PValue.vlist ds = v3 := by simpa [dlookup, plainField] using hv3
          subst hvc
          obtain ⟨ys, hw3, hce⟩ := powercastListNested_ok hcast3
          subst hw3
          have hys : ∀ y ∈ ys, conformNested y := castElemsNested_conform hds hce
          have hj3 : j3 = [("x", PValue.vint n), ("nested", w2), ("nl", .vlist ys)] := by
            rw [hout3]; simp [dinsert, plainField]
          subst hj3
          rw [runPipelineWith] at hp
          simp only [Except.ok.injEq] at hp
          rw [← h, ← hp]
          exact ⟨rfl, n, w2, ys, rfl, hconf2, hys⟩

theorem handleField_generic_eval
    {pc : PValue → PType → List (PType × (PValue → PValue)) → Except PErr PValue}
    {cls : PDCClass} {inst : List (String × PValue)} {f : FieldDesc} {v w : PValue}
    (hfh : cls.fieldHandlers = []) (hth : cls.typeHandlers = [])
    (hskip : f.skipTypecasting = false)
    (hv : dlookup inst f.name = some v) (hnn : isNoneV v = false)
    (hcast : pc v f.ftype [] = .ok w) :
    handleFieldWith pc cls inst f = .ok (dinsert inst f.name w) := by
  unfold handleFieldWith
  rw [hv]
  simp only [hskip, Bool.false_eq_true, if_false, hfh, hth]
  rw [show dlookup ([] : List (String × Handler)) f.name = none from rfl]
  rw [show dlookup ([] : List (PType × Handler)) f.ftype = none from rfl]
  dsimp only
  rw [genericFieldStep, hnn]
  simp only [Bool.false_eq_true, if_false]
  rw [show boundTypeCasters cls inst = [] by simp [boundTypeCasters, hth], hcast]

theorem convertAllNested_pair {fuel : Nat} : ∀ {ls : List PValue},
    (∀ u ∈ ls, conformNested u) →
    ∃ ys, convertAll rtEnv false ls = .ok ys ∧
      castElems (powercast (fuel + 2) rtEnv) (.plain (.rdc "Nested")) [] ys = .ok ls := by
  intro ls
  induction ls with
  | nil => intro hc; exact ⟨[], rfl, rfl⟩
  | cons u rest ih =>
    intro hconf
    have hu := hconf u (by simp)
    cases u
    case vdc nm fs =>
      obtain ⟨hnm, a, b, hfs⟩ := hu
      subst hnm
      subst hfs
      obtain ⟨ys, hca, hce⟩ := ih (fun v hv => hconf v (by simp [hv]))
      refine ⟨PValue.vdict [(.vstr "a", .vint a), (.vstr "b", .vstr b)] :: ys, ?_, ?_⟩
      · rw [convertAll, convertNested_eval]
        dsimp only
        rw [hca]
      · rw [castElems]
        rw [show powercast (fuel + 2) rtEnv
              (.vdict [(.vstr "a", .vint a), (.vstr "b", .vstr b)])
              (.plain (.rdc "Nested")) [] =
            .ok (.vdc "Nested" [("a", .vint a), ("b", .vstr b)]) from powercastNested_eval]
        dsimp only
        rw [hce]
    all_goals exact absurd hu (by simp [conformNested])

theorem reconstructOuter_id {fuel : Nat} {inst : PValue} (hconf : conformOuter inst) :
    reconstructFromDict (fuel + 3) rtEnv outerCls inst = .ok inst := by
  cases inst
  case vdc nm fs =>
    obtain ⟨hnm, x, nv, ls, hfs, hcn, hls⟩ := hconf
    subst hnm
    subst hfs
    cases nv
    case vdc nm2 fs2 =>
      obtain ⟨hnm2, a, b, hfs2⟩ := hcn
      subst hnm2
      subst hfs2
      obtain ⟨ys, hca, hce⟩ := @convertAllNested_pair fuel ls hls
      have had : asDictPairs rtEnv false [("x", PValue.vint x), ("nested", (PValue.vdc "Nested" [("a", PValue.vint a), ("b", PValue.vstr b)])), ("nl", PValue.vlist ls)] = .ok [(PValue.vstr "x", PValue.vint x), (PValue.vstr "nested", (PValue.vdict [(.vstr "a", .vint a), (.vstr "b", .vstr b)])), (PValue.vstr "nl", PValue.vlist ys)] := by
        rw [asDictPairs]
        rw [show convertToDict rtEnv false (PValue.vint x) = .ok (PValue.vint x) from rfl]
        dsimp only
        rw [asDictPairs, convertNested_eval]
        dsimp only
        rw [asDictPairs]
        rw [show convertToDict rtEnv false (PValue.vlist ls) =
            (match convertAll rtEnv false ls with
             | .ok zs => (.ok (.vlist zs) : Except PErr PValue)
             | .error e => .error e) from rfl]
        rw [hca]
        dsimp only
        rw [asDictPairs]
      unfold reconstructFromDict
      rw [show asDictTop rtEnv false (PValue.vdc "Outer" [("x", PValue.vint x), ("nested", (PValue.vdc "Nested" [("a", PValue.vint a), ("b", PValue.vstr b)])), ("nl", PValue.vlist ls)]) =
          asDictPairs rtEnv false [("x", PValue.vint x), ("nested", (PValue.vdc "Nested" [("a", PValue.vint a), ("b", PValue.vstr b)])), ("nl", PValue.vlist ls)] from rfl]
      rw [had]
      dsimp only
      rw [show kwargsOf [(PValue.vstr "x", PValue.vint x), (PValue.vstr "nested", (PValue.vdict [(.vstr "a", .vint a), (.vstr "b", .vstr b)])), (PValue.vstr "nl", PValue.vlist ys)] = .ok [("x", PValue.vint x), ("nested", (PValue.vdict [(.vstr "a", .vint a), (.vstr "b", .vstr b)])), ("nl", PValue.vlist ys)] from rfl]
      dsimp only
      unfold mkInstance buildInstanceWith
      rw [show bindArgs outerCls.fields [] [("x", PValue.vint x), ("nested", (PValue.vdict [(.vstr "a", .vint a), (.vstr "b", .vstr b)])), ("nl", PValue.vlist ys)] = .ok [("x", PValue.vint x), ("nested", (PValue.vdict [(.vstr "a", .vint a), (.vstr "b", .vstr b)])), ("nl", PValue.vlist ys)] from rfl]
      dsimp only
      rw [show outerCls.handlingOrder = [plainField "x" (.plain .rint),
          plainField "nested" (.plain (.rdc "Nested")),
          plainField "nl" (.listOf (.plain (.rdc "Nested")))] from rfl]
      rw [runPipelineWith]
      have pcast1 : powercast (fuel + 3) rtEnv (PValue.vint x) (.plain .rint) [] =
          .ok (PValue.vint x) := powercast_id
      have hs1 : handleFieldWith (powercast (fuel + 3) rtEnv) outerCls [("x", PValue.vint x), ("nested", (PValue.vdict [(.vstr "a", .vint a), (.vstr "b", .vstr b)])), ("nl", PValue.vlist ys)]
          (plainField "x" (.plain .rint)) = .ok [("x", PValue.vint x), ("nested", (PValue.vdict [(.vstr "a", .vint a), (.vstr "b", .vstr b)])), ("nl", PValue.vlist ys)] :=
        handleField_generic_eval rfl rfl rfl rfl rfl pcast1
      rw [hs1]
      dsimp only
      rw [runPipelineWith]
      have pcast2 : powercast (fuel + 3) rtEnv (PValue.vdict [(.vstr "a", .vint a), (.vstr "b", .vstr b)]) (.plain (.rdc "Nested")) [] =
          .ok (PValue.vdc "Nested" [("a", PValue.vint a), ("b", PValue.vstr b)]) := powercastNested_eval
      have hs2 : handleFieldWith (powercast (fuel + 3) rtEnv) outerCls [("x", PValue.vint x), ("nested", (PValue.vdict [(.vstr "a", .vint a), (.vstr "b", .vstr b)])), ("nl", PValue.vlist ys)]
          (plainField "nested" (.plain (.rdc "Nested"))) = .ok [("x", PValue.vint x), ("nested", (PValue.vdc "Nested" [("a", PValue.vint a), ("b", PValue.vstr b)])), ("nl", PValue.vlist ys)] :=
        handleField_generic_eval rfl rfl rfl rfl rfl pcast2
      rw [hs2]
      dsimp only
      rw [runPipelineWith]
      have pcast3 : powercast (fuel + 3) rtEnv (PValue.vlist ys)
          (.listOf (.plain (.rdc "Nested"))) [] = .ok (PValue.vlist ls) := by
        have hm : (match castElems (powercast (fuel + 2) rtEnv) (.plain (.rdc "Nested")) [] ys with
            | .ok zs => (.ok (.vlist zs) : Except PErr PValue)
            | .error e => .error e) = .ok (PValue.vlist ls) := by rw [hce]
        exact hm
      have hs3 : handleFieldWith (powercast (fuel + 3) rtEnv) outerCls [("x", PValue.vint x), ("nested", (PValue.vdc "Nested" [("a", PValue.vint a), ("b", PValue.vstr b)])), ("nl", PValue.vlist ys)]
          (plainField "nl" (.listOf (.plain (.rdc "Nested")))) = .ok [("x", PValue.vint x), ("nested", (PValue.vdc "Nested" [("a", PValue.vint a), ("b", PValue.vstr b)])), ("nl", PValue.vlist ls)] :=
        handleField_generic_eval rfl rfl rfl rfl rfl pcast3
      rw [hs3]
      dsimp only
      rw [runPipelineWith]
      rfl
    all_goals exact absurd hcn (by simp [conformNested])
  all_goals exact absurd hconf (by simp [conformOuter])

/-- C9 (amended): `as_dict` followed by keyword re-construction is the
identity on well-formed instances, and instantiation from raw nested data
(dicts for record fields, a list of dicts for the record-list field)
always yields such a well-formed instance — on which the round trip is
again the identity.  The claim's unconditional "any instance" fails
(see the counterexample: a non-idempotent field handler breaks it, and the
identity fast path lets malformed hand-made instances through), but for
handler-free schemas of primitive, nested-record and list-of-record
fields the round trip is exact, at any sufficient recursion budget. -/
theorem claim9_round_trip_amended (fuel : Nat) :
    (∀ inst, conformOuter inst →
      reconstructFromDict (fuel + 3) rtEnv outerCls inst = .ok inst) ∧
    (∀ vx kvs ds w, (∀ d ∈ ds, ∃ ps, d = PValue.vdict ps) →
      mkInstance (fuel + 3) rtEnv outerCls [vx, PValue.vdict kvs, PValue.vlist ds] [] = .ok w →
      conformOuter w ∧ reconstructFromDict (fuel + 3) rtEnv outerCls w = .ok w) :=
  ⟨fun _ hconf => reconstructOuter_id hconf,
   fun _ _ _ _ hds hmk =>
     have hc := mkOuter_conform hds hmk
     ⟨hc, reconstructOuter_id hc⟩⟩

theorem claim9_round_trip_amended_witness :
    (conformOuter sampleOuter ∧
      reconstructFromDict 3 rtEnv outerCls sampleOuter = .ok sampleOuter) ∧
    (conformOuter builtOuter ∧
      reconstructFromDict 3 rtEnv outerCls builtOuter = .ok builtOuter) :=
  have hconf : conformOuter sampleOuter :=
    ⟨rfl, 1, _, _, rfl, ⟨rfl, 2, "z", rfl⟩,
      fun u hu => by
        cases hu with
        | head => exact ⟨rfl, 3, "w", rfl⟩
        | tail _ h2 => cases h2⟩
  ⟨⟨hconf, (claim9_round_trip_amended 0).1 sampleOuter hconf⟩,
    (claim9_round_trip_amended 0).2 (.vstr "7")
      [(.vstr "a", .vstr "5"), (.vstr "b", .vint 6)]
      [.vdict [(.vstr "a", .vint 8), (.vstr "b", .vstr "q")]] builtOuter
      (fun d hd => by
        cases hd with
        | head => exact ⟨[(.vstr "a", .vint 8), (.vstr "b", .vstr "q")], rfl⟩
        | tail _ h2 => cases h2)
      rfl⟩
